import Mathlib

/-!
# Verification of the Bedrock-IPC serialization and transport core

This file gives a shallow embedding, in Lean, of the core of the Bedrock-IPC
TypeScript repository — the growable `ByteBuffer`, the serializer framework
(primitive, variable-length-integer, string and composite serializers), the
`PacketEncoder` text-safe packetizer, and the `MessageListener` fragment
reassembly state machine — and proves or refutes the specification's claims
about them.

Modelling conventions:
* JavaScript byte values and 16-bit code units are `Nat`s; 32-bit wrap-around
  of JS bitwise operators is made explicit with `% 2 ^ 32`.
* JS strings are lists of UTF-16 code-unit values (`List Nat`), since the
  source manipulates them exclusively through `charCodeAt` / `fromCharCode`.
* Generator suspensions (`yield`) have no observable effect on the values
  computed, so generator-style functions are embedded as plain functions.
* Fallible operations return `Option` or `Except String`; a JS `throw` is an
  `Option.none` / `Except.error` result.
-/

namespace IPC

/-! ## ByteBuffer (`src/proto/ByteBuffer.ts`)

The TS class owns a `Uint8Array`, a write cursor and a read cursor, growing
the backing array on demand.  Growth and spare capacity are unobservable
through the public operations (`toUint8Array` slices to the write cursor), so
the embedding keeps only the written bytes (`data`, with `writePosition =
data.length`) and the read cursor. -/

structure ByteBuffer where
  data : List Nat
  readPos : Nat
deriving Repr, DecidableEq

namespace ByteBuffer

/-- TS `get writePosition()` — the write cursor. -/
def writePosition (b : ByteBuffer) : Nat := b.data.length

/-- TS `get readPosition()` — the read cursor. -/
def readPosition (b : ByteBuffer) : Nat := b.readPos

/-- TS `get available()` — bytes available to read (`writePos - readPos`). -/
def available (b : ByteBuffer) : Nat := b.data.length - b.readPos

/-- TS `advance(size)`: throws `Buffer underflow` when `size > available`,
otherwise returns the prior read offset and moves the read cursor forward by
`size`.  The JS method checks before mutating, so on the error path the
buffer is unchanged; the embedding reflects this by returning no mutated
state with the error. -/
def advance (b : ByteBuffer) (size : Nat) : Except String (Nat × ByteBuffer) :=
  if size > b.available then
    .error ("Buffer underflow: requested " ++ toString size ++ ", available "
      ++ toString b.available)
  else
    .ok (b.readPos, { b with readPos := b.readPos + size })

/-- TS `writeByte(value)`: appends `value & 0xFF` at the write cursor. -/
def writeByte (b : ByteBuffer) (value : Nat) : ByteBuffer :=
  { b with data := b.data ++ [value &&& 255] }

/-- TS `readByte()`: `advance(1)` then load the byte at the returned offset. -/
def readByte (b : ByteBuffer) : Except String (Nat × ByteBuffer) :=
  (b.advance 1).map (fun p => (p.2.data.getD p.1 0, p.2))

/-- TS `writeBytes(data)`: bulk append (the source `Uint8Array` already holds
bytes, so no masking occurs). -/
def writeBytes (b : ByteBuffer) (bytes : List Nat) : ByteBuffer :=
  { b with data := b.data ++ bytes }

/-- TS `resetRead()`. -/
def resetRead (b : ByteBuffer) : ByteBuffer := { b with readPos := 0 }

/-- TS `toUint8Array()`: the written bytes. -/
def toUint8Array (b : ByteBuffer) : List Nat := b.data

/-- TS `ByteBuffer.from(data)`: fresh buffer holding `data`, read cursor reset.
(`from` is a Lean keyword, hence the name.) -/
def ofBytes (bytes : List Nat) : ByteBuffer := ⟨bytes, 0⟩

/-- An empty buffer, as produced by `new ByteBuffer()`. -/
def empty : ByteBuffer := ⟨[], 0⟩

end ByteBuffer

/-! ## PacketEncoder (`src/net/encoding/PacketEncoder.ts`)

Encodes a buffer's bytes, two at a time, into text fragments bounded by a
size budget: each 16-bit unit `low | (high << 8)` is either appended as one
raw character (when its value exceeds `0xFF`) or as two uppercase hex digit
characters.  Fragments are `List Nat` of character codes. -/

namespace PacketEncoder

/-- Constant `MAX_FRAGMENT_SIZE`. -/
def MAX_FRAGMENT_SIZE : Nat := 2048

/-- Pair consecutive bytes into 16-bit units, `low | (high << 8)`, the high
byte being `0` for an odd trailing byte. -/
def pairUnits : List Nat → List Nat
  | [] => []
  | [b0] => [b0 ||| (0 <<< 8)]
  | b0 :: b1 :: rest => (b0 ||| (b1 <<< 8)) :: pairUnits rest

/-- The cost charged for one unit: `charCode > 0xFF ? (charCode <= 0x7F ? 1 :
charCode <= 0x7FF ? 2 : 3) : 2` (the `1` branch is unreachable). -/
def charSize (c : Nat) : Nat :=
  if c > 0xFF then (if c ≤ 0x7F then 1 else if c ≤ 0x7FF then 2 else 3) else 2

/-- Code of the uppercase hex digit for `d < 16`
(`toString(16).toUpperCase()`). -/
def hexChar (d : Nat) : Nat := if d < 10 then 48 + d else 55 + d

/-- The characters appended for one unit: the raw character for values above
`0xFF`, otherwise `toString(16).padStart(2, '0').toUpperCase()` — exactly two
uppercase hex digits. -/
def unitChars (c : Nat) : List Nat :=
  if c > 0xFF then [c] else [hexChar (c / 16), hexChar (c % 16)]

/-- Encoder loop state: closed fragments (each with the accumulated cost it
was closed at), the open fragment and its accumulated cost. -/
structure EncodeState where
  fragments : List (List Nat × Nat)
  current : List Nat
  currentSize : Nat
deriving Repr, DecidableEq

/-- One iteration of the encode loop: close the open fragment if appending
would exceed the budget, then append the unit's characters and cost. -/
def encodeStep (maxSize : Nat) (st : EncodeState) (c : Nat) : EncodeState :=
  let st' := if st.currentSize + charSize c > maxSize then
      ⟨st.fragments ++ [(st.current, st.currentSize)], [], 0⟩
    else st
  ⟨st'.fragments, st'.current ++ unitChars c, st'.currentSize + charSize c⟩

/-- Function `encode`, keeping each closed fragment's accumulated cost.  The trailing
push happens `if (currentFragment || fragments.length === 0)`. -/
def encodeSized (bytes : List Nat) (maxSize : Nat) : List (List Nat × Nat) :=
  let fin := (pairUnits bytes).foldl (encodeStep maxSize) ⟨[], [], 0⟩
  if fin.current ≠ [] ∨ fin.fragments = [] then
    fin.fragments ++ [(fin.current, fin.currentSize)]
  else fin.fragments

/-- TS `PacketEncoder.encode(buffer, maxSize)`: the fragment strings. -/
def encode (buffer : ByteBuffer) (maxSize : Nat := MAX_FRAGMENT_SIZE) :
    List (List Nat) :=
  (encodeSized buffer.toUint8Array maxSize).map Prod.fst

/-- Semantics of `parseInt(c, 16)` for a single character code: its hex digit value
(case-insensitive), or `none` for `NaN`. -/
def hexDigitVal (c : Nat) : Option Nat :=
  if 48 ≤ c ∧ c ≤ 57 then some (c - 48)
  else if 65 ≤ c ∧ c ≤ 70 then some (c - 55)
  else if 97 ≤ c ∧ c ≤ 102 then some (c - 87)
  else none

/-- Semantics of `parseInt` applied to a two-character string in base 16: parses the leading hex
digits, and a full `NaN` is mapped to `0` since the decoder only uses the
result through `& 0xFF` and `>> 8`, both of which send `NaN` to `0`. -/
def parseHexPair (c1 c2 : Nat) : Nat :=
  match hexDigitVal c1, hexDigitVal c2 with
  | some a, some b => 16 * a + b
  | some a, none => a
  | none, _ => 0

/-- Decode one fragment's characters to bytes: a character at or below
`0xFF` consumes the following character too and is parsed as a hex pair
(`fragment[j] + fragment[++j]`; a lone trailing hex character is concatenated
with `undefined`, so only its own digit parses); a character above `0xFF`
supplies both bytes directly.  Each step writes `value & 0xFF` then
`value >> 8`. -/
def decodeFragChars : List Nat → List Nat
  | [] => []
  | c :: rest =>
    if c ≤ 0xFF then
      match rest with
      | c2 :: rest2 =>
        let v := parseHexPair c c2
        (v &&& 255) :: (v >>> 8) :: decodeFragChars rest2
      | [] =>
        let v := match hexDigitVal c with | some a => a | none => 0
        [v &&& 255, v >>> 8]
    else (c &&& 255) :: (c >>> 8) :: decodeFragChars rest

/-- The bytes written by `PacketEncoder.decode`: fragments processed in
order, empty fragments skipped (`if (!fragment) continue`). -/
def decodeBytes (fragments : List (List Nat)) : List Nat :=
  fragments.foldl (fun acc f => if f = [] then acc else acc ++ decodeFragChars f) []

/-- TS `PacketEncoder.decode(fragments)`: writes every fragment's bytes into a
fresh buffer and resets the read cursor. -/
def decode (fragments : List (List Nat)) : ByteBuffer :=
  ⟨decodeBytes fragments, 0⟩

end PacketEncoder

/-! ## Serializer framework (`src/proto/Serializer.ts`,
`src/proto/serializers/...`)

The framework is deeply embedded: `Schema` enumerates the serializer kinds
the repository provides (composite kinds holding child schemas), and `Value`
is the domain of JS values they process.  A TS serializer slot holding
`undefined` — the situation the composite deserializers guard against — is
the schema `Schema.missing`.

Numbers: all integer serializers operate on JS numbers (or bigints for the
64-bit varints), embedded as `Int`.  Float serializers move the IEEE-754
bits of the value unchanged through the `DataView` (`setFloat64`/`getFloat64`
are mutually inverse on the stored bits), so a float value is embedded as
its bit pattern. -/

/-- Conversion ToUint32 (`value >>> 0`) on an integral JS number. -/
def jsToUint32 (v : Int) : Nat := (v % ((2 ^ 32 : Nat) : Int)).toNat

/-- Conversion `BigInt.asUintN(64, value)`. -/
def asUintN64 (v : Int) : Nat := (v % ((2 ^ 64 : Nat) : Int)).toNat

/-- Reading a two's-complement pattern of `8 * w` bits back as a signed
integer (`DataView.getIntN`). -/
def toSigned (w : Nat) (u : Nat) : Int :=
  if u < 2 ^ (8 * w - 1) then (u : Int) else (u : Int) - 2 ^ (8 * w)

/-- The `8 * w`-bit two's-complement pattern a `DataView.setIntN` /
`setUintN` call stores for an integral JS number. -/
def intPat (w : Nat) (v : Int) : Nat := (v % ((2 ^ (8 * w) : Nat) : Int)).toNat

/-- Big-endian bytes of an `8 * w`-bit pattern, most significant first —
what `DataView.set*` writes with the little-endian flag omitted. -/
def beBytes : Nat → Nat → List Nat
  | 0, _ => []
  | w + 1, pat => ((pat >>> (8 * w)) % 256) :: beBytes w (pat % 2 ^ (8 * w))

/-- Big-endian read of `w` bytes (`DataView.get*`). -/
def beVal : Nat → List Nat → Option (Nat × List Nat)
  | 0, bs => some (0, bs)
  | _ + 1, [] => none
  | w + 1, b :: bs => (beVal w bs).map (fun p => (b * 2 ^ (8 * w) + p.1, p.2))

/-- The LEB128 emission loop shared by `VarUInt32Serializer.serialize` and
`VarUInt64Serializer.serialize`: `while (value >= 0x80) { writeByte((value &
0x7F) | 0x80); value >>>= 7 } writeByte(value)`. -/
def leb128 (v : Nat) : List Nat :=
  if h : v ≥ 128 then ((v &&& 127) ||| 128) :: leb128 (v >>> 7) else [v]
termination_by v
decreasing_by
  rw [Nat.shiftRight_eq_div_pow]
  exact Nat.div_lt_self (by omega) (by norm_num)

/-- Loop of `VarUInt32Serializer.deserialize`: up to five bytes, each
contributing its low seven bits at the current shift with 32-bit wrap
(`value |= (byte & 0x7F) << shift`), stopping on a clear continuation bit.
Running out of bytes throws (`Buffer underflow in VarUInt32`). -/
def varUInt32DeserGo : Nat → Nat → Nat → List Nat → Option (Nat × List Nat)
  | 0, _, acc, bs => some (acc, bs)
  | _ + 1, _, _, [] => none
  | i + 1, shift, acc, b :: rest =>
    let acc' := acc ||| (((b &&& 127) <<< shift) % 2 ^ 32)
    if b &&& 128 = 0 then some (acc', rest)
    else varUInt32DeserGo i (shift + 7) acc' rest

/-- TS `VarUInt32Serializer.deserialize`. -/
def varUInt32Deser (bs : List Nat) : Option (Nat × List Nat) :=
  varUInt32DeserGo 5 0 0 bs

/-- Loop of `VarUInt64Serializer.deserialize`: up to ten bytes, bigint
accumulation (no 32-bit wrap), `BigInt.asUintN(64, ·)` applied to the
result on every exit path. -/
def varUInt64DeserGo : Nat → Nat → Nat → List Nat → Option (Nat × List Nat)
  | 0, _, acc, bs => some (acc % 2 ^ 64, bs)
  | _ + 1, _, _, [] => none
  | i + 1, shift, acc, b :: rest =>
    let acc' := acc ||| ((b &&& 127) <<< shift)
    if b &&& 128 = 0 then some (acc' % 2 ^ 64, rest)
    else varUInt64DeserGo i (shift + 7) acc' rest

/-- TS `VarUInt64Serializer.deserialize`. -/
def varUInt64Deser (bs : List Nat) : Option (Nat × List Nat) :=
  varUInt64DeserGo 10 0 0 bs

/-- The zigzag pattern `(value << 1) ^ (value >> 31)` of
`VarInt32Serializer.serialize`, computed on 32-bit patterns: `value << 1`
doubles the pattern modulo `2 ^ 32` and `value >> 31` (arithmetic shift)
is all-ones exactly when the sign bit is set. -/
def zigzag32 (v : Int) : Nat :=
  ((2 * jsToUint32 v) % 2 ^ 32) ^^^ (if 2 ^ 31 ≤ jsToUint32 v then 2 ^ 32 - 1 else 0)

/-- Reading a 32-bit pattern as a signed JS number (ToInt32). -/
def toInt32 (u : Nat) : Int := if u < 2 ^ 31 then (u : Int) else (u : Int) - 2 ^ 32

/-- The zigzag decode `(zigzag >>> 1) ^ -(zigzag & 1)` of
`VarInt32Serializer.deserialize`: `-(zigzag & 1)` has pattern all-ones
exactly when `zigzag` is odd, and the xor result is read back as a signed
32-bit number. -/
def unzigzag32 (z : Nat) : Int :=
  toInt32 ((z >>> 1) ^^^ (if z &&& 1 = 0 then 0 else 2 ^ 32 - 1))

/-- The bigint zigzag `(value << 1n) ^ (value >> 63n)` of
`VarInt64Serializer.serialize` on the serializer's 64-bit domain: the
arithmetic shift yields `-1n` on negatives (`0n` otherwise), and bigint xor
with `-1n` is `fun x => -x - 1`. -/
def zigzag64 (v : Int) : Int := if v < 0 then -(2 * v) - 1 else 2 * v

/-- The bigint unzigzag `(zigzag >> 1n) ^ -(zigzag & 1n)` of
`VarInt64Serializer.deserialize` for `zigzag` in `[0, 2 ^ 64)`. -/
def unzigzag64 (z : Nat) : Int :=
  if z % 2 = 0 then ((z / 2 : Nat) : Int) else -((z / 2 : Nat) : Int) - 1

/-- Reading one byte from the remaining-bytes list (`buffer.readByte()`);
an exhausted buffer throws via `advance`. -/
def nextByte : List Nat → Option (Nat × List Nat)
  | [] => none
  | b :: rest => some (b, rest)

/-- Per-character emission loop of `StringSerializer.serialize`: each
UTF-16 code unit through `VarUInt32.serialize`. -/
def serializeCodes : List Nat → List Nat
  | [] => []
  | c :: cs => leb128 (c % 2 ^ 32) ++ serializeCodes cs

/-- Per-character loop of `StringSerializer.deserialize`: `length` var-ints,
each passed through `String.fromCharCode` (ToUint16). -/
def deserializeCodes : Nat → List Nat → Option (List Nat × List Nat)
  | 0, bs => some ([], bs)
  | n + 1, bs => do
    let (c, bs1) ← varUInt32Deser bs
    let (cs, bs2) ← deserializeCodes n bs1
    some (c % 2 ^ 16 :: cs, bs2)

mutual
/-- The serializer kinds provided by the repository; `missing` stands for a
TS serializer slot holding `undefined`. -/
inductive Schema where
  | missing
  | boolean
  | int8
  | int16
  | int32
  | uint8
  | uint16
  | uint32
  | float32
  | float64
  | varuint32
  | varint32
  | varuint64
  | varint64
  | string
  | array (elem : Schema)
  | optional (elem : Schema)
  | map (key : Schema) (val : Schema)
  | set (elem : Schema)
  | object (fields : Fields)
  | tuple (elems : SList)
deriving DecidableEq

/-- An `ObjectSerializer` schema: named child serializers in declaration
order. -/
inductive Fields where
  | nil
  | cons (name : String) (s : Schema) (rest : Fields)
deriving DecidableEq

/-- A `TupleSerializer` configuration: child serializers in positional
order. -/
inductive SList where
  | nil
  | cons (s : Schema) (rest : SList)
deriving DecidableEq
end

/-- JS values processed by the serializers.  Floats are carried as their
IEEE-754 bit patterns; `undef` is JS `undefined` (and `null`, which the
optional serializer treats identically). -/
inductive Value where
  | bool (b : Bool)
  | int (n : Int)
  | f32 (pat : Nat)
  | f64 (pat : Nat)
  | str (codes : List Nat)
  | list (elems : List Value)
  | obj (fields : List (String × Value))
  | mapV (entries : List (Value × Value))
  | setV (elems : List Value)
  | undef

/-- Test for an IEEE-754 single NaN pattern. -/
def isNaN32 (pat : Nat) : Bool :=
  ((pat >>> 23) &&& 255) = 255 && (pat &&& (2 ^ 23 - 1)) ≠ 0

/-- Test for a single-precision signed-zero pattern. -/
def isZeroPat32 (pat : Nat) : Bool := (pat &&& (2 ^ 31 - 1)) = 0

/-- Test for an IEEE-754 double NaN pattern. -/
def isNaN64 (pat : Nat) : Bool :=
  ((pat >>> 52) &&& 2047) = 2047 && (pat &&& (2 ^ 52 - 1)) ≠ 0

/-- Test for a double-precision signed-zero pattern. -/
def isZeroPat64 (pat : Nat) : Bool := (pat &&& (2 ^ 63 - 1)) = 0

/-- The SameValueZero comparison `Map` and `Set` containers key on:
primitives by value (all NaNs identified, `+0` and `-0` identified),
composite values by object identity — and a freshly built composite is
identical to nothing else, so the embedding compares composites as never
the same. -/
def sameValueZero : Value → Value → Bool
  | .bool a, .bool b => a == b
  | .int a, .int b => a == b
  | .f32 a, .f32 b => a == b || (isNaN32 a && isNaN32 b) || (isZeroPat32 a && isZeroPat32 b)
  | .f64 a, .f64 b => a == b || (isNaN64 a && isNaN64 b) || (isZeroPat64 a && isZeroPat64 b)
  | .str a, .str b => a == b
  | .undef, .undef => true
  | _, _ => false

/-- JS `Map.set(key, val)` on insertion-ordered entries: overwrite the value
at a SameValueZero-equal key, else append. -/
def mapSet (entries : List (Value × Value)) (k v : Value) : List (Value × Value) :=
  match entries with
  | [] => [(k, v)]
  | (k0, v0) :: rest =>
    if sameValueZero k0 k then (k0, v) :: rest else (k0, v0) :: mapSet rest k v

/-- JS `Set.add(x)` on insertion-ordered elements. -/
def setAdd (elems : List Value) (x : Value) : List Value :=
  if elems.any (fun y => sameValueZero y x) then elems else elems ++ [x]

/-- Pairwise-distinct (SameValueZero) elements — what any list of elements
drawn from an actual JS `Set` satisfies. -/
def distinctElems : List Value → Bool
  | [] => true
  | v :: vs => vs.all (fun w => !sameValueZero v w) && distinctElems vs

/-- Pairwise-distinct (SameValueZero) keys — what any entry list drawn from
an actual JS `Map` satisfies. -/
def distinctKeys : List (Value × Value) → Bool
  | [] => true
  | (k, _) :: es => es.all (fun e => !sameValueZero k e.1) && distinctKeys es

mutual
/-- A schema with no `undefined` serializer slot. -/
def completeB : Schema → Bool
  | .missing => false
  | .array e => completeB e
  | .optional e => completeB e
  | .map k v => completeB k && completeB v
  | .set e => completeB e
  | .object fs => completeFields fs
  | .tuple es => completeTuple es
  | _ => true

/-- Field-list companion of `completeB`. -/
def completeFields : Fields → Bool
  | .nil => true
  | .cons _ s rest => completeB s && completeFields rest

/-- Tuple companion of `completeB`. -/
def completeTuple : SList → Bool
  | .nil => true
  | .cons s rest => completeB s && completeTuple rest
end

mutual
/-- Valid values of a serializer's type: the JS values of the right shape
whose components are in the representable range of each child serializer
(integer ranges, code-unit bounds, 32-bit length prefixes, SameValueZero
distinctness inside `Map` keys and `Set` elements). -/
def validB : Schema → Value → Bool
  | .boolean, .bool _ => true
  | .int8, .int n => decide (-(2 ^ 7 : Int) ≤ n) && decide (n < 2 ^ 7)
  | .int16, .int n => decide (-(2 ^ 15 : Int) ≤ n) && decide (n < 2 ^ 15)
  | .int32, .int n => decide (-(2 ^ 31 : Int) ≤ n) && decide (n < 2 ^ 31)
  | .uint8, .int n => decide (0 ≤ n) && decide (n < 2 ^ 8)
  | .uint16, .int n => decide (0 ≤ n) && decide (n < 2 ^ 16)
  | .uint32, .int n => decide (0 ≤ n) && decide (n < 2 ^ 32)
  | .float32, .f32 pat => decide (pat < 2 ^ 32)
  | .float64, .f64 pat => decide (pat < 2 ^ 64)
  | .varuint32, .int n => decide (0 ≤ n) && decide (n < 2 ^ 32)
  | .varint32, .int n => decide (-(2 ^ 31 : Int) ≤ n) && decide (n < 2 ^ 31)
  | .varuint64, .int n => decide (0 ≤ n) && decide (n < 2 ^ 64)
  | .varint64, .int n => decide (-(2 ^ 63 : Int) ≤ n) && decide (n < 2 ^ 63)
  | .string, .str cs => decide (cs.length < 2 ^ 32) && cs.all (fun c => decide (c < 2 ^ 16))
  | .array e, .list vs => decide (vs.length < 2 ^ 32) && validList e vs
  | .optional _, .undef => true
  | .optional e, v => validB e v
  | .map k v, .mapV es => decide (es.length < 2 ^ 32) && validEntries k v es && distinctKeys es
  | .set e, .setV vs => decide (vs.length < 2 ^ 32) && validList e vs && distinctElems vs
  | .object fs, .obj ovs => validFields fs ovs
  | .tuple ss, .list vs => validTuple ss vs
  | _, _ => false
termination_by s v => (sizeOf s, 1, sizeOf v)
decreasing_by all_goals (simp_wf; simp [Prod.lex_def]; try omega)

/-- Element-list companion of `validB`. -/
def validList : Schema → List Value → Bool
  | _, [] => true
  | e, v :: vs => validB e v && validList e vs
termination_by e vs => (sizeOf e + 1, 0, sizeOf vs)
decreasing_by all_goals (simp_wf; simp [Prod.lex_def]; try omega)

/-- Entry-list companion of `validB`. -/
def validEntries : Schema → Schema → List (Value × Value) → Bool
  | _, _, [] => true
  | k, v, (key, val) :: es => validB k key && validB v val && validEntries k v es
termination_by k v es => (sizeOf k + sizeOf v + 1, 0, sizeOf es)
decreasing_by all_goals (simp_wf; simp [Prod.lex_def]; try omega)

/-- Field companion of `validB`: the object's own fields match the schema's
names in declaration order. -/
def validFields : Fields → List (String × Value) → Bool
  | .nil, [] => true
  | .cons name s rest, (n, v) :: ovs =>
    decide (n = name) && validB s v && validFields rest ovs
  | _, _ => false
termination_by fs ovs => (sizeOf fs + 1, 0, sizeOf ovs)
decreasing_by all_goals (simp_wf; simp [Prod.lex_def]; try omega)

/-- Tuple companion of `validB`. -/
def validTuple : SList → List Value → Bool
  | .nil, [] => true
  | .cons s rest, v :: vs => validB s v && validTuple rest vs
  | _, _ => false
termination_by ss vs => (sizeOf ss + 1, 0, sizeOf vs)
decreasing_by all_goals (simp_wf; simp [Prod.lex_def]; try omega)
end

mutual
/-- The TS `serialize(value, buffer)` of each serializer, as the bytes it
appends to the buffer.  A `none` is a thrown error: a `missing` serializer
slot being invoked, or a value whose shape does not match the schema (the
JS code would misbehave on such values; every claim quantifies only over
`validB` values). -/
def serialize : Schema → Value → Option (List Nat)
  | .missing, _ => none
  | .boolean, .bool b => some [if b then 1 else 0]
  | .int8, .int n => some (beBytes 1 (intPat 1 n))
  | .int16, .int n => some (beBytes 2 (intPat 2 n))
  | .int32, .int n => some (beBytes 4 (intPat 4 n))
  | .uint8, .int n => some (beBytes 1 (intPat 1 n))
  | .uint16, .int n => some (beBytes 2 (intPat 2 n))
  | .uint32, .int n => some (beBytes 4 (intPat 4 n))
  | .float32, .f32 pat => some (beBytes 4 pat)
  | .float64, .f64 pat => some (beBytes 8 pat)
  | .varuint32, .int n => some (leb128 (jsToUint32 n))
  | .varint32, .int n => some (leb128 (zigzag32 n))
  | .varuint64, .int n => some (leb128 (asUintN64 n))
  | .varint64, .int n => some (leb128 (asUintN64 (zigzag64 n)))
  | .string, .str cs => some (leb128 (cs.length % 2 ^ 32) ++ serializeCodes cs)
  | .array e, .list vs =>
    (serializeList e vs).map (fun bs => leb128 (vs.length % 2 ^ 32) ++ bs)
  | .optional _, .undef => some [0]
  | .optional e, v => (serialize e v).map (fun bs => 1 :: bs)
  | .map k v, .mapV es =>
    (serializeEntries k v es).map (fun bs => leb128 (es.length % 2 ^ 32) ++ bs)
  | .set e, .setV vs =>
    (serializeList e vs).map (fun bs => leb128 (vs.length % 2 ^ 32) ++ bs)
  | .object fs, .obj ovs => serializeFields fs ovs
  | .tuple ss, .list vs => serializeTuple ss vs
  | _, _ => none
termination_by s v => (sizeOf s, 1, sizeOf v)
decreasing_by all_goals (simp_wf; simp [Prod.lex_def]; try omega)

/-- Element loop of `ArraySerializer.serialize` / `SetSerializer.serialize`. -/
def serializeList : Schema → List Value → Option (List Nat)
  | _, [] => some []
  | e, v :: vs => do
    let b ← serialize e v
    let bs ← serializeList e vs
    some (b ++ bs)
termination_by e vs => (sizeOf e + 1, 0, sizeOf vs)
decreasing_by all_goals (simp_wf; simp [Prod.lex_def]; try omega)

/-- Entry loop of `MapSerializer.serialize`: key then value per entry. -/
def serializeEntries : Schema → Schema → List (Value × Value) → Option (List Nat)
  | _, _, [] => some []
  | k, v, (key, val) :: es => do
    let kb ← serialize k key
    let vb ← serialize v val
    let rest ← serializeEntries k v es
    some (kb ++ vb ++ rest)
termination_by k v es => (sizeOf k + sizeOf v + 1, 0, sizeOf es)
decreasing_by all_goals (simp_wf; simp [Prod.lex_def]; try omega)

/-- Field loop of `ObjectSerializer.serialize`: `for (key in schema)` reads
`value[key]`; the model requires the value's fields in declaration order
(the shape every object produced by this schema has). -/
def serializeFields : Fields → List (String × Value) → Option (List Nat)
  | .nil, _ => some []
  | .cons _ _ _, [] => none
  | .cons name s rest, (n, v) :: ovs =>
    if n = name then do
      let b ← serialize s v
      let bs ← serializeFields rest ovs
      some (b ++ bs)
    else none
termination_by fs ovs => (sizeOf fs + 1, 0, sizeOf ovs)
decreasing_by all_goals (simp_wf; simp [Prod.lex_def]; try omega)

/-- Positional loop of `TupleSerializer.serialize`. -/
def serializeTuple : SList → List Value → Option (List Nat)
  | .nil, _ => some []
  | .cons _ _, [] => none
  | .cons s rest, v :: vs => do
    let b ← serialize s v
    let bs ← serializeTuple rest vs
    some (b ++ bs)
termination_by ss vs => (sizeOf ss + 1, 0, sizeOf vs)
decreasing_by all_goals (simp_wf; simp [Prod.lex_def]; try omega)
end

mutual
/-- The TS `deserialize(buffer)` of each serializer, reading from the
remaining bytes: returns the decoded value and the bytes left, `none` for a
thrown error (buffer underflow, or invoking a `missing` serializer
directly).  The composite kinds reproduce the defensive paths of
`CollectionSerializers.ts`: an array whose element serializer is `missing`
reads its length and returns an empty array; an object or tuple skips a
`missing` child, leaving that key or slot out of the result. -/
def deserialize : Schema → List Nat → Option (Value × List Nat)
  | .missing, _ => none
  | .boolean, bs => (nextByte bs).map (fun p => (.bool (p.1 != 0), p.2))
  | .int8, bs => (beVal 1 bs).map (fun p => (.int (toSigned 1 p.1), p.2))
  | .int16, bs => (beVal 2 bs).map (fun p => (.int (toSigned 2 p.1), p.2))
  | .int32, bs => (beVal 4 bs).map (fun p => (.int (toSigned 4 p.1), p.2))
  | .uint8, bs => (beVal 1 bs).map (fun p => (.int p.1, p.2))
  | .uint16, bs => (beVal 2 bs).map (fun p => (.int p.1, p.2))
  | .uint32, bs => (beVal 4 bs).map (fun p => (.int p.1, p.2))
  | .float32, bs => (beVal 4 bs).map (fun p => (.f32 p.1, p.2))
  | .float64, bs => (beVal 8 bs).map (fun p => (.f64 p.1, p.2))
  | .varuint32, bs => (varUInt32Deser bs).map (fun p => (.int p.1, p.2))
  | .varint32, bs => (varUInt32Deser bs).map (fun p => (.int (unzigzag32 p.1), p.2))
  | .varuint64, bs => (varUInt64Deser bs).map (fun p => (.int p.1, p.2))
  | .varint64, bs => (varUInt64Deser bs).map (fun p => (.int (unzigzag64 p.1), p.2))
  | .string, bs => do
    let (n, bs1) ← varUInt32Deser bs
    let (cs, bs2) ← deserializeCodes n bs1
    some (.str cs, bs2)
  | .array e, bs => do
    let (n, bs1) ← varUInt32Deser bs
    if e = Schema.missing then some (.list [], bs1)
    else do
      let (vs, bs2) ← deserializeList e n bs1
      some (.list vs, bs2)
  | .optional e, bs => do
    let (b, bs1) ← nextByte bs
    if b != 0 then deserialize e bs1 else some (.undef, bs1)
  | .map k v, bs => do
    let (n, bs1) ← varUInt32Deser bs
    let (es, bs2) ← deserializeEntries k v n [] bs1
    some (.mapV es, bs2)
  | .set e, bs => do
    let (n, bs1) ← varUInt32Deser bs
    let (vs, bs2) ← deserializeSet e n [] bs1
    some (.setV vs, bs2)
  | .object fs, bs => (deserializeFields fs bs).map (fun p => (.obj p.1, p.2))
  | .tuple ss, bs => (deserializeTuple ss bs).map (fun p => (.list p.1, p.2))
termination_by s _ => (sizeOf s, 1, 0)
decreasing_by all_goals (simp_wf; simp [Prod.lex_def]; try omega)

/-- Element loop of `ArraySerializer.deserialize`, `length` many elements. -/
def deserializeList : Schema → Nat → List Nat → Option (List Value × List Nat)
  | _, 0, bs => some ([], bs)
  | e, n + 1, bs => do
    let (v, bs1) ← deserialize e bs
    let (vs, bs2) ← deserializeList e n bs1
    some (v :: vs, bs2)
termination_by e n _ => (sizeOf e + 1, 0, n)
decreasing_by all_goals (simp_wf; simp [Prod.lex_def]; try omega)

/-- Entry loop of `MapSerializer.deserialize`: key, value, `result.set`. -/
def deserializeEntries : Schema → Schema → Nat → List (Value × Value) →
    List Nat → Option (List (Value × Value) × List Nat)
  | _, _, 0, acc, bs => some (acc, bs)
  | k, v, n + 1, acc, bs => do
    let (key, bs1) ← deserialize k bs
    let (val, bs2) ← deserialize v bs1
    deserializeEntries k v n (mapSet acc key val) bs2
termination_by k v n _ _ => (sizeOf k + sizeOf v + 1, 0, n)
decreasing_by all_goals (simp_wf; simp [Prod.lex_def]; try omega)

/-- Element loop of `SetSerializer.deserialize`: `result.add` per element. -/
def deserializeSet : Schema → Nat → List Value → List Nat →
    Option (List Value × List Nat)
  | _, 0, acc, bs => some (acc, bs)
  | e, n + 1, acc, bs => do
    let (v, bs1) ← deserialize e bs
    deserializeSet e n (setAdd acc v) bs1
termination_by e n _ _ => (sizeOf e + 1, 0, n)
decreasing_by all_goals (simp_wf; simp [Prod.lex_def]; try omega)

/-- Field loop of `ObjectSerializer.deserialize`: a `missing` child logs and
`continue`s, skipping the key. -/
def deserializeFields : Fields → List Nat → Option (List (String × Value) × List Nat)
  | .nil, bs => some ([], bs)
  | .cons name s rest, bs =>
    if s = Schema.missing then deserializeFields rest bs
    else do
      let (v, bs1) ← deserialize s bs
      let (fvs, bs2) ← deserializeFields rest bs1
      some ((name, v) :: fvs, bs2)
termination_by fs _ => (sizeOf fs + 1, 0, 0)
decreasing_by all_goals (simp_wf; simp [Prod.lex_def]; try omega)

/-- Positional loop of `TupleSerializer.deserialize`: a `missing` child logs
and `continue`s, pushing nothing for that slot. -/
def deserializeTuple : SList → List Nat → Option (List Value × List Nat)
  | .nil, bs => some ([], bs)
  | .cons s rest, bs =>
    if s = Schema.missing then deserializeTuple rest bs
    else do
      let (v, bs1) ← deserialize s bs
      let (vs, bs2) ← deserializeTuple rest bs1
      some (v :: vs, bs2)
termination_by ss _ => (sizeOf ss + 1, 0, 0)
decreasing_by all_goals (simp_wf; simp [Prod.lex_def]; try omega)
end

/-! ## MessageListener reassembly (`src/net/messages/MessageListener.ts`)

The `listen` method installs a closure holding a `Map` from guid to a
fragment-buffer entry `{size, fragments, received}`.  On each arriving
`(header, fragment)` pair it creates or updates the entry, and when the
completion predicate `size !== -1 && received.size === size` holds it
collects fragments `0 .. size-1` (throwing `Missing fragment at index i`
when slot `i` is unset *or holds the empty string* — the check is the JS
truthiness test `!entry.fragments[i]`), decodes them with `PacketEncoder`,
deletes the entry, deserializes, and invokes the subscriber callback.

The model's dispatch output is the decoded byte list: the value delivered to
the callback is `deserializer.deserialize` of exactly these bytes, a
deterministic function of them.  On the missing-fragment error the throw
happens before the `delete`, so the updated entry stays in the map. -/

namespace MessageListener

/-- Header data attached to each fragment (`HeaderData`). -/
structure Header where
  guid : String
  version : String
  index : Nat
  isFinal : Bool
deriving Repr, DecidableEq

/-- Per-guid reassembly state (`FragmentEntry`): `size` is `-1` until the
final-flagged fragment reveals the count; `fragments` is the JS sparse array
as an index-keyed association list; `received` is the JS `Set` of indices in
insertion order. -/
structure FragmentEntry where
  size : Int
  fragments : List (Nat × List Nat)
  received : List Nat
deriving Repr, DecidableEq

/-- Sparse-array read `entry.fragments[i]`. -/
def getFrag : List (Nat × List Nat) → Nat → Option (List Nat)
  | [], _ => none
  | (j, f) :: rest, i => if j = i then some f else getFrag rest i

/-- Sparse-array write `entry.fragments[i] = fragment`. -/
def setFrag : List (Nat × List Nat) → Nat → List Nat → List (Nat × List Nat)
  | [], i, f => [(i, f)]
  | (j, g) :: rest, i, f =>
    if j = i then (j, f) :: rest else (j, g) :: setFrag rest i f

/-- JS `Set.add` on the received-index set. -/
def addReceived (s : List Nat) (i : Nat) : List Nat :=
  if i ∈ s then s else s ++ [i]

/-- Lookup in the guid-keyed fragment buffer `Map`. -/
def lookupEntry : List (String × FragmentEntry) → String → Option FragmentEntry
  | [], _ => none
  | (g, e) :: rest, guid => if g = guid then some e else lookupEntry rest guid

/-- JS `Map.set` on the fragment buffer (update in place or append). -/
def setEntry : List (String × FragmentEntry) → String → FragmentEntry →
    List (String × FragmentEntry)
  | [], guid, e => [(guid, e)]
  | (g, e0) :: rest, guid, e =>
    if g = guid then (g, e) :: rest else (g, e0) :: setEntry rest guid e

/-- JS `Map.delete` on the fragment buffer. -/
def removeEntry : List (String × FragmentEntry) → String →
    List (String × FragmentEntry)
  | [], _ => []
  | (g, e) :: rest, guid =>
    if g = guid then rest else (g, e) :: removeEntry rest guid

/-- The entry for `header.guid` after the listener's updates: find-or-create,
set `size = index + 1` when the final flag is set, store the fragment at its
index, mark the index received. -/
def updatedEntry (buf : List (String × FragmentEntry)) (h : Header)
    (fragment : List Nat) : FragmentEntry :=
  let e0 := (lookupEntry buf h.guid).getD ⟨-1, [], []⟩
  let e1 := if h.isFinal then { e0 with size := (h.index : Int) + 1 } else e0
  { e1 with fragments := setFrag e1.fragments h.index fragment,
            received := addReceived e1.received h.index }

/-- The completion predicate `entry.size !== -1 && entry.received.size ===
entry.size`. -/
def completionPred (e : FragmentEntry) : Bool :=
  decide (e.size ≠ -1) && decide ((e.received.length : Int) = e.size)

/-- Collect loop over indices `0 .. size-1`: throws `Missing fragment at
index i` at the first slot that is unset or holds the empty string
(`if (!entry.fragments[i])`). -/
def collectIdx (frags : List (Nat × List Nat)) : List Nat →
    Except String (List (List Nat))
  | [] => .ok []
  | i :: rest =>
    match getFrag frags i with
    | some f =>
      if f = [] then .error ("Missing fragment at index " ++ toString i)
      else (collectIdx frags rest).map (fun fs => f :: fs)
    | none => .error ("Missing fragment at index " ++ toString i)

/-- One invocation of the `listen` closure on an arriving `(header,
fragment)` pair: returns the updated fragment buffer and, when the
completion predicate fired, the dispatch outcome — the decoded bytes handed
to `deserializer.deserialize` and then the callback, or the thrown
missing-fragment error (in which case the entry is not deleted). -/
def listenStep (buf : List (String × FragmentEntry)) (h : Header)
    (fragment : List Nat) :
    List (String × FragmentEntry) × Option (Except String (List Nat)) :=
  let entry := updatedEntry buf h fragment
  if completionPred entry then
    match collectIdx entry.fragments (List.range entry.size.toNat) with
    | .error e => (setEntry buf h.guid entry, some (.error e))
    | .ok frags => (removeEntry buf h.guid, some (.ok (PacketEncoder.decodeBytes frags)))
  else (setEntry buf h.guid entry, none)

/-- Deliver a sequence of `(header, fragment)` pairs to the listener,
collecting every dispatch outcome in order. -/
def processTrace : List (Header × List Nat) → List (String × FragmentEntry) →
    List (String × FragmentEntry) × List (Except String (List Nat))
  | [], buf => (buf, [])
  | (h, f) :: rest, buf =>
    let step := listenStep buf h f
    let next := processTrace rest step.1
    (next.1, (match step.2 with | some o => [o] | none => []) ++ next.2)

end MessageListener

namespace PacketEncoder

/-- Concatenation of the per-unit character strings of a unit list (proof
layer: the encoder's output partitions into such strings). -/
def unitsChars : List Nat → List Nat
  | [] => []
  | u :: us => unitChars u ++ unitsChars us

/-- The two bytes the decoder reconstructs per unit, over a unit list. -/
def unitsBytes : List Nat → List Nat
  | [] => []
  | u :: us => (u &&& 255) :: (u >>> 8) :: unitsBytes us

/-- Concatenation of a fragment list. -/
def joinAll : List (List Nat) → List Nat
  | [] => []
  | f :: fs => f ++ joinAll fs

end PacketEncoder

/-! ######################################################################
# Theorems
###################################################################### -/

/-! ## Bit-arithmetic facts about JS-style operations -/

/-- Bits of `a` above position `k` are clear when `a < 2 ^ k`. -/
theorem testBit_high_false {a k j : Nat} (h : a < 2 ^ k) (hj : k ≤ j) :
    a.testBit j = false :=
  Nat.testBit_lt_two_pow (lt_of_lt_of_le h (Nat.pow_le_pow_right (by omega) hj))

/-- Or-ing a shifted value onto low bits is addition when the low part fits. -/
theorem lor_shiftLeft_eq_add {a : Nat} (b k : Nat) (h : a < 2 ^ k) :
    a ||| (b <<< k) = 2 ^ k * b + a := by
  apply Nat.eq_of_testBit_eq
  intro j
  rw [Nat.testBit_lor, Nat.testBit_shiftLeft, Nat.testBit_mul_pow_two_add b h j]
  by_cases hj : j < k
  · have : ¬ (j ≥ k) := by omega
    simp [this, hj]
  · have hk : k ≤ j := by omega
    simp [ge_iff_le, hk, if_neg hj, testBit_high_false h hk]

/-- Xor-ing a single high power of two onto low bits is addition. -/
theorem xor_two_pow_eq_add {a : Nat} (k : Nat) (h : a < 2 ^ k) :
    a ^^^ 2 ^ k = 2 ^ k + a := by
  apply Nat.eq_of_testBit_eq
  intro j
  have h1 : (2 ^ k + a) = 2 ^ k * 1 + a := by ring_nf
  rw [Nat.testBit_xor, h1, Nat.testBit_mul_pow_two_add 1 h j]
  by_cases hj : j < k
  · have hne : (2 ^ k).testBit j = false := by
      rw [Nat.testBit_two_pow]
      simp only [decide_eq_false_iff_not]
      omega
    simp [hj, hne]
  · have hk : k ≤ j := by omega
    rw [if_neg hj, testBit_high_false h hk, Nat.testBit_two_pow]
    rcases Nat.eq_or_lt_of_le hk with rfl | hlt
    · simp
    · have : ¬ (k = j) := by omega
      have h2 : (1 : Nat) < 2 ^ (j - k) := by
        have : 1 ≤ j - k := by omega
        calc (1 : Nat) < 2 ^ 1 := by norm_num
        _ ≤ 2 ^ (j - k) := Nat.pow_le_pow_right (by norm_num) this
      simp [this, testBit_high_false h2 (le_refl _)]

/-- Right shift distributes over xor. -/
theorem shiftRight_xor (a b n : Nat) : (a ^^^ b) >>> n = (a >>> n) ^^^ (b >>> n) := by
  apply Nat.eq_of_testBit_eq
  intro j
  simp [Nat.testBit_shiftRight, Nat.testBit_xor]

/-- Masking: `x &&& 0xFF` is `x % 256`. -/
theorem and_255_eq_mod (x : Nat) : x &&& 255 = x % 256 := by
  have h : (255 : Nat) = 2 ^ 8 - 1 := by norm_num
  rw [h, Nat.and_pow_two_sub_one_eq_mod]

/-- Masking: `x &&& 0x7F` is `x % 128`. -/
theorem and_127_eq_mod (x : Nat) : x &&& 127 = x % 128 := by
  have h : (127 : Nat) = 2 ^ 7 - 1 := by norm_num
  rw [h, Nat.and_pow_two_sub_one_eq_mod]

/-- Masking: `x &&& 1` is `x % 2`. -/
theorem and_1_eq_mod (x : Nat) : x &&& 1 = x % 2 := by
  have h : (1 : Nat) = 2 ^ 1 - 1 := by norm_num
  rw [h, Nat.and_pow_two_sub_one_eq_mod]

/-- Shifting: `x >>> 8` is division by 256. -/
theorem shiftRight_8_eq_div (x : Nat) : x >>> 8 = x / 256 := by
  rw [Nat.shiftRight_eq_div_pow]

/-- Shifting: `x >>> 7` is division by 128. -/
theorem shiftRight_7_eq_div (x : Nat) : x >>> 7 = x / 128 := by
  rw [Nat.shiftRight_eq_div_pow]

/-- Or with zero on the left. -/
theorem zero_lor' (n : Nat) : 0 ||| n = n := by
  apply Nat.eq_of_testBit_eq
  intro j
  simp [Nat.testBit_lor]

/-- Or with zero on the right. -/
theorem lor_zero' (n : Nat) : n ||| 0 = n := by
  apply Nat.eq_of_testBit_eq
  intro j
  simp [Nat.testBit_lor]


namespace PacketEncoder

set_option maxRecDepth 2048 in
/-- Hex digits emitted by the encoder are themselves codes at most 255, and
parsing the emitted pair recovers the unit. -/
theorem hexPair_roundtrip :
    ∀ c < 256, hexChar (c / 16) ≤ 255 ∧ hexChar (c % 16) ≤ 255 ∧
      parseHexPair (hexChar (c / 16)) (hexChar (c % 16)) = c := by
  decide

/-- Decoding the characters of one unit prepends that unit's two bytes. -/
theorem decodeFragChars_unit {c : Nat} (hc : c < 65536) (rest : List Nat) :
    decodeFragChars (unitChars c ++ rest) =
      (c &&& 255) :: (c >>> 8) :: decodeFragChars rest := by
  by_cases h : c > 255
  · have h' : ¬ (c ≤ 255) := by omega
    simp only [unitChars, if_pos h, List.cons_append, List.nil_append]
    rw [decodeFragChars.eq_def]
    simp [h']
  · have hc' : c < 256 := by omega
    obtain ⟨h1, h2, h3⟩ := hexPair_roundtrip c hc'
    simp only [unitChars, if_neg h, List.cons_append, List.nil_append]
    rw [decodeFragChars.eq_def]
    simp [h1, h3]

/-- Decoding a whole unit string gives the units' bytes. -/
theorem decodeFragChars_units {us : List Nat} (h : ∀ u ∈ us, u < 65536) :
    decodeFragChars (unitsChars us) = unitsBytes us := by
  induction us with
  | nil => simp [unitsChars, unitsBytes, decodeFragChars]
  | cons u us ih =>
    have hu : u < 65536 := h u (by simp)
    rw [unitsChars, decodeFragChars_unit hu, unitsBytes,
      ih (fun v hv => h v (by simp [hv]))]

/-- Unit strings concatenate. -/
theorem unitsChars_append (us vs : List Nat) :
    unitsChars (us ++ vs) = unitsChars us ++ unitsChars vs := by
  induction us with
  | nil => simp [unitsChars]
  | cons u us ih => simp [unitsChars, ih]

/-- Unit bytes concatenate. -/
theorem unitsBytes_append (us vs : List Nat) :
    unitsBytes (us ++ vs) = unitsBytes us ++ unitsBytes vs := by
  induction us with
  | nil => simp [unitsBytes]
  | cons u us ih => simp [unitsBytes, ih]

/-- Fragment concatenation distributes over append. -/
theorem joinAll_append (fs gs : List (List Nat)) :
    joinAll (fs ++ gs) = joinAll fs ++ joinAll gs := by
  induction fs with
  | nil => simp [joinAll]
  | cons f fs ih => simp [joinAll, ih]

/-- A unit string is never empty. -/
theorem unitsChars_eq_nil_iff (us : List Nat) : unitsChars us = [] ↔ us = [] := by
  cases us with
  | nil => simp [unitsChars]
  | cons u us =>
    simp only [unitsChars, unitChars]
    constructor
    · intro h
      by_cases hc : u > 255 <;> simp [hc] at h
    · intro h
      exact absurd h (by simp)

/-- Units built from bytes below 256 stay below 65536. -/
theorem pairUnits_bound {bytes : List Nat} (h : ∀ b ∈ bytes, b < 256) :
    ∀ u ∈ pairUnits bytes, u < 65536 := by
  induction bytes using pairUnits.induct with
  | case1 => simp [pairUnits]
  | case2 b0 =>
    have hb0 : b0 < 256 := h b0 (by simp)
    have : b0 ||| (0 <<< 8) = 2 ^ 8 * 0 + b0 := lor_shiftLeft_eq_add 0 8 hb0
    simp only [pairUnits, List.mem_singleton]
    omega
  | case3 b0 b1 rest ih =>
    have hb0 : b0 < 256 := h b0 (by simp)
    have hb1 : b1 < 256 := h b1 (by simp)
    have hu : b0 ||| (b1 <<< 8) = 2 ^ 8 * b1 + b0 := lor_shiftLeft_eq_add b1 8 hb0
    intro u hu'
    rcases List.mem_cons.mp hu' with rfl | hmem
    · omega
    · exact ih (fun b hb => h b (by simp [hb])) u hmem

/-- The bytes reconstructed from the paired units: the original bytes, plus
a zero-pad when the byte count is odd. -/
theorem unitsBytes_pairUnits {bytes : List Nat} (h : ∀ b ∈ bytes, b < 256) :
    unitsBytes (pairUnits bytes) =
      if bytes.length % 2 = 0 then bytes else bytes ++ [0] := by
  induction bytes using pairUnits.induct with
  | case1 => simp [pairUnits, unitsBytes]
  | case2 b0 =>
    have hb0 : b0 < 256 := h b0 (by simp)
    have h1 : b0 ||| (0 <<< 8) = 2 ^ 8 * 0 + b0 := lor_shiftLeft_eq_add 0 8 hb0
    simp only [pairUnits, unitsBytes, h1, and_255_eq_mod, shiftRight_8_eq_div]
    have h2 : (2 ^ 8 * 0 + b0) % 256 = b0 := by omega
    have h3 : (2 ^ 8 * 0 + b0) / 256 = 0 := by omega
    simp only [h2, h3, List.length_singleton]
    norm_num
  | case3 b0 b1 rest ih =>
    have hb0 : b0 < 256 := h b0 (by simp)
    have hb1 : b1 < 256 := h b1 (by simp)
    have h1 : b0 ||| (b1 <<< 8) = 2 ^ 8 * b1 + b0 := lor_shiftLeft_eq_add b1 8 hb0
    have hmod : (2 ^ 8 * b1 + b0) % 256 = b0 := by omega
    have hdiv : (2 ^ 8 * b1 + b0) / 256 = b1 := by omega
    have ihr := ih (fun b hb => h b (by simp [hb]))
    simp only [pairUnits, unitsBytes, h1, and_255_eq_mod, shiftRight_8_eq_div,
      hmod, hdiv, ihr, List.length_cons]
    have hpar : (rest.length + 1 + 1) % 2 = rest.length % 2 := by omega
    by_cases hp : rest.length % 2 = 0 <;> simp [hp, hpar]

/-- Folding the decoder step from any accumulator prepends it. -/
theorem decodeBytes_acc (fs : List (List Nat)) : ∀ acc : List Nat,
    fs.foldl (fun acc f => if f = [] then acc else acc ++ decodeFragChars f) acc
      = acc ++ decodeBytes fs := by
  induction fs with
  | nil => intro acc; simp [decodeBytes]
  | cons f fs ih =>
    intro acc
    rw [decodeBytes, List.foldl_cons, List.foldl_cons, ih, ih (if f = [] then [] else [] ++ decodeFragChars f)]
    by_cases hf : f = [] <;> simp [hf]

/-- Per-fragment form of `decodeBytes` (skipping an empty fragment is the
same as appending its empty decode). -/
theorem decodeBytes_cons (f : List Nat) (fs : List (List Nat)) :
    decodeBytes (f :: fs) = decodeFragChars f ++ decodeBytes fs := by
  rw [decodeBytes, List.foldl_cons, decodeBytes_acc]
  by_cases hf : f = [] <;> simp [hf, decodeFragChars]

/-- Membership in a concatenation comes from membership in a component. -/
theorem mem_joinAll {u : Nat} {us : List Nat} {uss : List (List Nat)}
    (h1 : us ∈ uss) (h2 : u ∈ us) : u ∈ joinAll uss := by
  induction uss with
  | nil => cases h1
  | cons vs uss ih =>
    rcases List.mem_cons.mp h1 with rfl | h
    · exact List.mem_append_left _ h2
    · exact List.mem_append_right _ (ih h)

/-- Decoding fragments that are whole unit strings yields the bytes of all
their units in order. -/
theorem decodeBytes_map_units {uss : List (List Nat)}
    (h : ∀ us ∈ uss, ∀ u ∈ us, u < 65536) :
    decodeBytes (uss.map unitsChars) = unitsBytes (joinAll uss) := by
  induction uss with
  | nil => simp [decodeBytes, joinAll, unitsBytes]
  | cons us uss ih =>
    rw [List.map_cons, decodeBytes_cons, joinAll, unitsBytes_append,
      decodeFragChars_units (h us (by simp)), ih (fun vs hvs v hv => h vs (by simp [hvs]) v hv)]

/-- Invariant of the encode loop: the closed fragments and the open fragment
are whole unit strings whose units, concatenated, are the processed units. -/
theorem encode_foldl_inv (m : Nat) (us : List Nat) :
    ∀ (st : EncodeState) (uss : List (List Nat)) (cur : List Nat),
      st.fragments.map Prod.fst = uss.map unitsChars →
      st.current = unitsChars cur →
      ∃ uss' cur',
        (us.foldl (encodeStep m) st).fragments.map Prod.fst = uss'.map unitsChars ∧
        (us.foldl (encodeStep m) st).current = unitsChars cur' ∧
        joinAll uss' ++ cur' = joinAll uss ++ cur ++ us := by
  induction us with
  | nil =>
    intro st uss cur h1 h2
    exact ⟨uss, cur, h1, h2, by simp⟩
  | cons u us ih =>
    intro st uss cur h1 h2
    rw [List.foldl_cons]
    by_cases hc : st.currentSize + charSize u > m
    · have hstep : encodeStep m st u =
          ⟨st.fragments ++ [(st.current, st.currentSize)], [] ++ unitChars u, 0 + charSize u⟩ := by
        simp [encodeStep, hc]
      obtain ⟨uss', cur', ha, hb, hcc⟩ := ih (encodeStep m st u) (uss ++ [cur]) [u]
        (by simp [hstep, h1, h2]) (by simp [hstep, unitsChars])
      refine ⟨uss', cur', ha, hb, ?_⟩
      rw [hcc, joinAll_append]
      simp [joinAll]
    · have hstep : encodeStep m st u =
          ⟨st.fragments, st.current ++ unitChars u, st.currentSize + charSize u⟩ := by
        simp [encodeStep, hc]
      obtain ⟨uss', cur', ha, hb, hcc⟩ := ih (encodeStep m st u) uss (cur ++ [u])
        (by simp [hstep, h1]) (by simp [hstep, h2, unitsChars_append, unitsChars])
      refine ⟨uss', cur', ha, hb, ?_⟩
      rw [hcc]
      simp

/-- The fragments `encodeSized` produces are unit strings partitioning the
paired units of the input bytes. -/
theorem encodeSized_partition (bytes : List Nat) (m : Nat) :
    ∃ uss, (encodeSized bytes m).map Prod.fst = uss.map unitsChars ∧
      joinAll uss = pairUnits bytes := by
  obtain ⟨uss', cur', ha, hb, hcc⟩ := encode_foldl_inv m (pairUnits bytes)
    ⟨[], [], 0⟩ [] [] (by simp [unitsChars]) (by simp [unitsChars])
  simp only [joinAll, List.nil_append] at hcc
  rw [encodeSized]
  by_cases hpush : ((pairUnits bytes).foldl (encodeStep m) ⟨[], [], 0⟩).current ≠ [] ∨
      ((pairUnits bytes).foldl (encodeStep m) ⟨[], [], 0⟩).fragments = []
  · refine ⟨uss' ++ [cur'], ?_, ?_⟩
    · rw [if_pos hpush]
      simp [ha, hb]
    · simpa [joinAll_append, joinAll] using hcc
  · have hcur : ((pairUnits bytes).foldl (encodeStep m) ⟨[], [], 0⟩).current = [] := by
      by_contra hne
      exact hpush (Or.inl hne)
    refine ⟨uss', ?_, ?_⟩
    · rw [if_neg hpush]
      exact ha
    · have : unitsChars cur' = [] := by rw [← hb, hcur]
      have hcur' : cur' = [] := (unitsChars_eq_nil_iff cur').mp this
      rw [← hcc, hcur']
      simp

/-- C1 (amended): decoding the fragments of `PacketEncoder.encode(b, m)`
reproduces `b`'s byte sequence exactly when `b` has even length; for odd
length the trailing byte is zero-padded, so the decoded buffer is `b`'s
bytes followed by one zero byte. -/
theorem packet_encode_decode_roundtrip (buf : ByteBuffer) (m : Nat)
    (hm : 1 ≤ m) (hb : ∀ b ∈ buf.data, b < 256) :
    (decode (encode buf m)).toUint8Array =
      if buf.data.length % 2 = 0 then buf.data else buf.data ++ [0] := by
  obtain ⟨uss, hmap, hjoin⟩ := encodeSized_partition buf.data m
  have hbound : ∀ u ∈ pairUnits buf.data, u < 65536 := pairUnits_bound hb
  have hin : ∀ us ∈ uss, ∀ u ∈ us, u < 65536 := by
    intro us hus u hu
    exact hbound u (hjoin ▸ mem_joinAll hus hu)
  calc (decode (encode buf m)).toUint8Array
      = decodeBytes ((encodeSized buf.data m).map Prod.fst) := rfl
    _ = decodeBytes (uss.map unitsChars) := by rw [hmap]
    _ = unitsBytes (joinAll uss) := decodeBytes_map_units hin
    _ = unitsBytes (pairUnits buf.data) := by rw [hjoin]
    _ = _ := unitsBytes_pairUnits hb

/-- Witness for the C1 round trip at the even-length buffer `[1, 2]`. -/
theorem packet_encode_decode_roundtrip_witness :
    (decode (encode (ByteBuffer.ofBytes [1, 2]) 2048)).toUint8Array = [1, 2] := by
  have h := packet_encode_decode_roundtrip (ByteBuffer.ofBytes [1, 2]) 2048
    (by decide) (by decide)
  simpa using h

/-- C1 counterexample: the claim asserts the round trip reproduces the byte
sequence for every buffer including odd length, but an odd-length buffer
decodes to its zero-padded extension: `decode(encode([0x01]))` is
`[0x01, 0x00]`, not `[0x01]`. -/
theorem packet_roundtrip_odd_counterexample :
    (decode (encode (ByteBuffer.ofBytes [1]) MAX_FRAGMENT_SIZE)).toUint8Array = [1, 0]
    ∧ (decode (encode (ByteBuffer.ofBytes [1]) MAX_FRAGMENT_SIZE)).toUint8Array ≠ [1] := by
  decide

/-- Every unit costs at most 3. -/
theorem charSize_le_three (c : Nat) : charSize c ≤ 3 := by
  unfold charSize
  repeat' split
  all_goals omega

/-- Invariant of the encode loop under a budget of at least 3: every closed
fragment's accumulated cost and the open fragment's cost stay within the
budget. -/
theorem budget_inv {m : Nat} (hm : 3 ≤ m) (us : List Nat) :
    ∀ st : EncodeState, (∀ p ∈ st.fragments, p.2 ≤ m) → st.currentSize ≤ m →
      (∀ p ∈ (us.foldl (encodeStep m) st).fragments, p.2 ≤ m) ∧
        (us.foldl (encodeStep m) st).currentSize ≤ m := by
  induction us with
  | nil => intro st h1 h2; exact ⟨h1, h2⟩
  | cons u us ih =>
    intro st h1 h2
    rw [List.foldl_cons]
    by_cases hc : st.currentSize + charSize u > m
    · have hstep : encodeStep m st u =
          ⟨st.fragments ++ [(st.current, st.currentSize)], [] ++ unitChars u, 0 + charSize u⟩ := by
        simp [encodeStep, hc]
      apply ih
      · intro p hp
        rw [hstep] at hp
        rcases List.mem_append.mp hp with h | h
        · exact h1 p h
        · simp only [List.mem_singleton] at h
          rw [h]
          exact h2
      · rw [hstep]
        show 0 + charSize u ≤ m
        have := charSize_le_three u
        omega
    · have hstep : encodeStep m st u =
          ⟨st.fragments, st.current ++ unitChars u, st.currentSize + charSize u⟩ := by
        simp [encodeStep, hc]
      apply ih
      · intro p hp
        rw [hstep] at hp
        exact h1 p hp
      · rw [hstep]
        show st.currentSize + charSize u ≤ m
        omega

/-- C3 (amended): with a size budget of at least 3 — enough for the most
expensive single unit — every fragment produced by `PacketEncoder.encode`
has accumulated cost at most the budget, under the cost model of the claim
(2 for a unit at or below 0xFF, else its encoded width of 2 or 3). -/
theorem fragment_budget_le (bytes : List Nat) {m : Nat} (hm : 3 ≤ m) :
    ∀ p ∈ encodeSized bytes m, p.2 ≤ m := by
  obtain ⟨h1, h2⟩ := budget_inv hm (pairUnits bytes) ⟨[], [], 0⟩ (by simp) (by simp)
  intro p hp
  rw [encodeSized] at hp
  by_cases hpush : ((pairUnits bytes).foldl (encodeStep m) ⟨[], [], 0⟩).current ≠ [] ∨
      ((pairUnits bytes).foldl (encodeStep m) ⟨[], [], 0⟩).fragments = []
  · rw [if_pos hpush] at hp
    rcases List.mem_append.mp hp with h | h
    · exact h1 p h
    · simp only [List.mem_singleton] at h
      rw [h]
      exact h2
  · rw [if_neg hpush] at hp
    exact h1 p hp

/-- Witness for the amended C3 at bytes `[0, 8]` and budget 3. -/
theorem fragment_budget_le_witness :
    3 ≤ 3 ∧ (encodeSized [0, 8] 3).all (fun p => decide (p.2 ≤ 3)) = true := by
  refine ⟨by decide, ?_⟩
  rw [List.all_eq_true]
  intro p hp
  simpa using fragment_budget_le [0, 8] (le_refl 3) p hp

/-- C3 counterexample: the claim asserts the bound for every budget m ≥ 1,
but with budget 1 the encoder still emits a whole unit into a fragment,
whose accumulated cost 2 exceeds the budget. -/
theorem fragment_budget_counterexample :
    1 ≤ 1 ∧ ¬ (∀ p ∈ encodeSized [0] 1, p.2 ≤ 1) := by
  decide

/-- C9: encoding an empty buffer yields exactly one fragment, the empty
string (never zero fragments), and decoding the single-element list holding
the empty string yields an empty buffer with its read cursor reset. -/
theorem empty_buffer_fragments (m : Nat) :
    encode (ByteBuffer.ofBytes []) m = [[]] ∧ decode [[]] = ByteBuffer.ofBytes [] := by
  exact ⟨rfl, rfl⟩

end PacketEncoder

/-- C8: `ByteBuffer.advance(n)` throws a buffer-underflow error exactly when
`n` exceeds the available bytes (`writePosition - readPosition`); on that
error no mutated state is produced (the check precedes the mutation, so the
read cursor is unchanged and no data is returned), and on success it returns
the prior read offset together with the buffer whose read cursor grew by
exactly `n` and whose data is untouched. -/
theorem advance_spec (b : ByteBuffer) (n : Nat) :
    ((∃ e, b.advance n = .error e) ↔ n > b.writePosition - b.readPosition)
    ∧ (n ≤ b.writePosition - b.readPosition →
        b.advance n = .ok (b.readPos, { b with readPos := b.readPos + n })) := by
  have havail : b.available = b.writePosition - b.readPosition := rfl
  constructor
  · constructor
    · intro ⟨e, he⟩
      by_cases hc : n > b.available
      · omega
      · rw [ByteBuffer.advance, if_neg hc] at he
        cases he
    · intro hgt
      exact ⟨_, by rw [ByteBuffer.advance, if_pos (by omega)]⟩
  · intro hle
    rw [ByteBuffer.advance, if_neg (by omega)]

/-- Witness for C8: advancing 3 in a 2-byte buffer errors; advancing 1
succeeds, returning offset 0 and moving the cursor to 1. -/
theorem advance_spec_witness :
    (∃ e, (ByteBuffer.ofBytes [7, 9]).advance 3 = .error e)
    ∧ (ByteBuffer.ofBytes [7, 9]).advance 1 = .ok (0, ⟨[7, 9], 1⟩) := by
  constructor
  · exact (advance_spec (ByteBuffer.ofBytes [7, 9]) 3).1.mpr (by decide)
  · exact (advance_spec (ByteBuffer.ofBytes [7, 9]) 1).2 (by decide)

/-- C7: the variable-length unsigned serializer writes exactly one byte for
127 and exactly two bytes for 128, and the zigzag signed serializer writes
for -1 the same single byte the unsigned serializer writes for 1. -/
theorem varint_boundary :
    serialize .varuint32 (.int 127) = some [127] ∧
    serialize .varuint32 (.int 128) = some [128, 1] ∧
    serialize .varint32 (.int (-1)) = some [1] ∧
    serialize .varuint32 (.int 1) = some [1] := by
  have h127 : jsToUint32 127 = 127 := by decide
  have h128 : jsToUint32 128 = 128 := by decide
  have h1 : jsToUint32 1 = 1 := by decide
  have hz : zigzag32 (-1) = 1 := by decide
  have l127 : leb128 127 = [127] := by rw [leb128]; norm_num
  have l1 : leb128 1 = [1] := by rw [leb128]; norm_num
  have l128 : leb128 128 = [128, 1] := by
    rw [leb128]
    norm_num
    constructor
    · decide
    · rw [show (128 >>> 7 : Nat) = 1 by decide, l1]
  refine ⟨?_, ?_, ?_, ?_⟩
  · rw [serialize, h127, l127]
  · rw [serialize, h128, l128]
  · rw [serialize, hz, l1]
  · rw [serialize, h1, l1]

namespace MessageListener

/-- C5: for a 3-fragment message final-flagged at index 2 (with each
fragment a nonempty string, as the encoder produces under any usable
budget), delivering the `(header, fragment)` pairs in arrival order
`[2, 0, 1]` completes reassembly and dispatches exactly once, with the same
decoded buffer as the in-order delivery `[0, 1, 2]` — hence the subscriber
callback receives the same deserialized value in both runs. -/
theorem out_of_order_reassembly (g v : String) (f0 f1 f2 : List Nat)
    (h0 : f0 ≠ []) (h1 : f1 ≠ []) (h2 : f2 ≠ []) :
    (processTrace [(⟨g, v, 2, true⟩, f2), (⟨g, v, 0, false⟩, f0),
        (⟨g, v, 1, false⟩, f1)] []).2
      = [Except.ok (PacketEncoder.decodeBytes [f0, f1, f2])]
    ∧ (processTrace [(⟨g, v, 0, false⟩, f0), (⟨g, v, 1, false⟩, f1),
        (⟨g, v, 2, true⟩, f2)] []).2
      = [Except.ok (PacketEncoder.decodeBytes [f0, f1, f2])] := by
  constructor <;>
    simp [processTrace, listenStep, updatedEntry, lookupEntry, setEntry,
      removeEntry, setFrag, getFrag, addReceived, completionPred, collectIdx,
      List.range_succ, Except.map, h0, h1, h2]

/-- Witness for C5 at concrete fragments. -/
theorem out_of_order_reassembly_witness :
    (processTrace [(⟨"g", "v", 2, true⟩, [67]), (⟨"g", "v", 0, false⟩, [65]),
        (⟨"g", "v", 1, false⟩, [66])] []).2
      = [Except.ok (PacketEncoder.decodeBytes [[65], [66], [67]])] :=
  (out_of_order_reassembly "g" "v" [65] [66] [67]
    (by decide) (by decide) (by decide)).1

/-- C6: the listener never dispatches before the completion predicate
`size != -1 && received.size == size` holds of the guid's updated entry; in
particular delivering only fragments 0 and 1 of a 3-fragment message whose
final flag sits on index 2 fires no subscriber. -/
theorem no_dispatch_before_complete :
    (∀ (buf : List (String × FragmentEntry)) (h : Header) (f : List Nat),
        ((listenStep buf h f).2).isSome = true →
          completionPred (updatedEntry buf h f) = true)
    ∧ (processTrace [(⟨"g", "v", 0, false⟩, [65]),
        (⟨"g", "v", 1, false⟩, [66])] []).2 = [] := by
  constructor
  · intro buf h f hne
    by_cases hc : completionPred (updatedEntry buf h f)
    · exact hc
    · exfalso
      unfold listenStep at hne
      simp [hc] at hne
  · rfl

/-- Witness for C6: a dispatching step indeed satisfies the completion
predicate. -/
theorem no_dispatch_before_complete_witness :
    completionPred (updatedEntry [] ⟨"g", "v", 0, true⟩ [65]) = true :=
  no_dispatch_before_complete.1 [] ⟨"g", "v", 0, true⟩ [65] (by rfl)

/-- The collect loop reports the first unset-or-empty slot it meets. -/
theorem collectIdx_first_error (frags : List (Nat × List Nat)) :
    ∀ (pre : List Nat) (i : Nat) (post : List Nat),
      (∀ j ∈ pre, ∃ fj, getFrag frags j = some fj ∧ fj ≠ []) →
      (getFrag frags i = some [] ∨ getFrag frags i = none) →
      collectIdx frags (pre ++ i :: post) =
        .error ("Missing fragment at index " ++ toString i) := by
  intro pre
  induction pre with
  | nil =>
    intro i post _ hbad
    rcases hbad with hb | hb <;> simp [collectIdx, hb]
  | cons j pre ih =>
    intro i post hgood hbad
    obtain ⟨fj, hfj, hne⟩ := hgood j (by simp)
    rw [List.cons_append, collectIdx]
    simp only [hfj]
    rw [if_neg hne, ih i post (fun j' hj' => hgood j' (by simp [hj'])) hbad]
    rfl

/-- C10: when the completion predicate becomes true for a guid but the
stored fragment at index `i` (the first offending slot, within
`[0, expectedCount)`) is the empty string, the listener throws
`Missing fragment at index i` instead of dispatching; consequently a message
whose zero-length payload encodes to the single empty fragment is never
delivered to any subscriber — its sole delivery attempt ends in that error. -/
theorem empty_fragment_never_dispatched :
    (∀ (buf : List (String × FragmentEntry)) (h : Header) (f : List Nat) (i : Nat),
        completionPred (updatedEntry buf h f) = true →
        i < (updatedEntry buf h f).size.toNat →
        getFrag (updatedEntry buf h f).fragments i = some [] →
        (∀ j < i, ∃ fj, getFrag (updatedEntry buf h f).fragments j = some fj ∧ fj ≠ []) →
        (listenStep buf h f).2 =
          some (.error ("Missing fragment at index " ++ toString i)))
    ∧ PacketEncoder.encode (ByteBuffer.ofBytes []) PacketEncoder.MAX_FRAGMENT_SIZE = [[]]
    ∧ (processTrace [(⟨"g", "v", 0, true⟩, [])] []).2
        = [.error ("Missing fragment at index 0")] := by
  refine ⟨?_, rfl, by rfl⟩
  intro buf h f i hpred hlt hempty hgood
  have hsplit : List.range (updatedEntry buf h f).size.toNat =
      List.range i ++ i :: ((List.range ((updatedEntry buf h f).size.toNat - i - 1)).map
        (fun x => i + 1 + x)) := by
    have hn : (updatedEntry buf h f).size.toNat =
        i + (1 + ((updatedEntry buf h f).size.toNat - i - 1)) := by omega
    rw [hn, List.range_add, List.range_add]
    simp [List.range_succ_eq_map, Function.comp]
  unfold listenStep
  rw [if_pos hpred, hsplit, collectIdx_first_error (updatedEntry buf h f).fragments
    (List.range i) i _ (fun j hj => hgood j (List.mem_range.mp hj)) (Or.inl hempty)]

/-- Witness for C10's general part at the single-empty-fragment message. -/
theorem empty_fragment_never_dispatched_witness :
    (listenStep [] ⟨"g", "v", 0, true⟩ []).2 =
      some (.error ("Missing fragment at index " ++ toString 0)) :=
  empty_fragment_never_dispatched.1 [] ⟨"g", "v", 0, true⟩ [] 0
    (by decide) (by decide) (by decide) (by omega)

end MessageListener

/-! ## Round-trip facts for the primitive serializers -/

/-- Or of two values below a power of two stays below it. -/
theorem lor_lt_two_pow {x y n : Nat} (hx : x < 2 ^ n) (hy : y < 2 ^ n) :
    x ||| y < 2 ^ n := by
  have hhigh : ∀ j, n ≤ j → (x ||| y).testBit j = false := by
    intro j hj
    have hxj : x.testBit j = false := testBit_high_false hx hj
    have hyj : y.testBit j = false := testBit_high_false hy hj
    simp [Nat.testBit_lor, hxj, hyj]
  apply Nat.lt_of_testBit n (hhigh n (le_refl n)) Nat.testBit_two_pow_self
  intro j hj
  rw [hhigh j (by omega), Nat.testBit_two_pow]
  simp
  omega

/-- A value below 128 has a clear continuation bit. -/
theorem and_128_eq_zero : ∀ n < 128, n &&& 128 = 0 := by decide

/-- Adding 128 to a 7-bit value sets the continuation bit. -/
theorem add_128_and_128 : ∀ x < 128, (x + 128) &&& 128 = 128 := by decide

/-- Adding 128 to a 7-bit value keeps its low seven bits. -/
theorem add_128_and_127 : ∀ x < 128, (x + 128) &&& 127 = x := by decide

/-- The 32-bit var-int read loop undoes the LEB128 emission loop, or-ing the
remaining value onto the accumulator at the current shift. -/
theorem varUInt32DeserGo_leb128 :
    ∀ (i : Nat), ∀ (n shift acc : Nat) (rest : List Nat), 1 ≤ i → n < 2 ^ (7 * i) →
      n * 2 ^ shift < 2 ^ 32 → acc < 2 ^ 32 →
      varUInt32DeserGo i shift acc (leb128 n ++ rest) =
        some (acc ||| (n <<< shift), rest) := by
  intro i
  induction i with
  | zero => intro n shift acc rest h1; omega
  | succ i ih =>
    intro n shift acc rest _ hn hsh hacc
    have hchunk : n <<< shift < 2 ^ 32 := by
      rw [Nat.shiftLeft_eq]
      exact hsh
    by_cases hlt : n < 128
    · rw [leb128, dif_neg (by omega)]
      show varUInt32DeserGo (i + 1) shift acc (n :: rest) = _
      rw [varUInt32DeserGo]
      have hand : n &&& 127 = n := by rw [and_127_eq_mod]; omega
      have hcont : n &&& 128 = 0 := and_128_eq_zero n hlt
      simp [hand, hcont, Nat.mod_eq_of_lt hchunk]
      congr 1
      omega
    · rw [leb128, dif_pos (by omega)]
      have hm : n % 128 < 128 := Nat.mod_lt _ (by omega)
      have hb : (n &&& 127) ||| 128 = n % 128 + 128 := by
        have hlor := lor_shiftLeft_eq_add (a := n % 128) 1 7 (by omega)
        norm_num [Nat.shiftLeft_eq] at hlor
        rw [and_127_eq_mod, hlor]
        omega
      rw [List.cons_append, hb]
      rw [varUInt32DeserGo]
      have hcont : (n % 128 + 128) &&& 128 = 128 := add_128_and_128 _ hm
      have hand : (n % 128 + 128) &&& 127 = n % 128 := add_128_and_127 _ hm
      have hchunk1 : (n % 128) <<< shift ≤ n <<< shift := by
        rw [Nat.shiftLeft_eq, Nat.shiftLeft_eq]
        exact Nat.mul_le_mul_right _ (Nat.mod_le n 128)
      have hmod : ((n % 128) <<< shift) % 2 ^ 32 = (n % 128) <<< shift :=
        Nat.mod_eq_of_lt (by omega)
      have hi1 : 1 ≤ i := by
        rcases Nat.eq_zero_or_pos i with rfl | h
        · norm_num at hn
          omega
        · exact h
      have hpow : 2 ^ (7 * (i + 1)) = 128 * 2 ^ (7 * i) := by
        have h7 : 7 * (i + 1) = 7 + 7 * i := by ring
        rw [h7, pow_add]
        norm_num
      have hn' : n >>> 7 < 2 ^ (7 * i) := by
        rw [shiftRight_7_eq_div]
        rw [hpow] at hn
        exact Nat.div_lt_of_lt_mul hn
      have hsh' : (n >>> 7) * 2 ^ (shift + 7) ≤ n * 2 ^ shift := by
        rw [shiftRight_7_eq_div, pow_add]
        calc n / 128 * (2 ^ shift * 2 ^ 7) = n / 128 * 128 * 2 ^ shift := by ring_nf
          _ ≤ n * 2 ^ shift := Nat.mul_le_mul_right _ (Nat.div_mul_le_self n 128)
      have hacc' : acc ||| ((n % 128) <<< shift) < 2 ^ 32 :=
        lor_lt_two_pow hacc (by omega)
      simp only [hcont, hand, hmod]
      rw [if_neg (by omega)]
      rw [ih (n >>> 7) (shift + 7) (acc ||| ((n % 128) <<< shift)) rest hi1 hn'
        (by omega) hacc']
      congr 2
      rw [Nat.lor_assoc]
      congr 1
      have hsmall : (n % 128) <<< shift < 2 ^ (shift + 7) := by
        rw [Nat.shiftLeft_eq, pow_add]
        have h2 : n % 128 * 2 ^ shift < 2 ^ 7 * 2 ^ shift :=
          (Nat.mul_lt_mul_right (Nat.two_pow_pos shift)).mpr (by omega)
        calc n % 128 * 2 ^ shift < 2 ^ 7 * 2 ^ shift := h2
          _ = 2 ^ shift * 2 ^ 7 := by ring
      rw [lor_shiftLeft_eq_add (n >>> 7) (shift + 7) hsmall]
      rw [Nat.shiftLeft_eq, Nat.shiftLeft_eq, shiftRight_7_eq_div, pow_add]
      calc 2 ^ shift * 2 ^ 7 * (n / 128) + n % 128 * 2 ^ shift
          = (128 * (n / 128) + n % 128) * 2 ^ shift := by ring_nf
        _ = n * 2 ^ shift := by rw [Nat.div_add_mod]

/-- TS `VarUInt32Serializer`: deserializing an LEB128 encoding of a 32-bit
value recovers it and consumes exactly its bytes. -/
theorem varUInt32Deser_leb128 {n : Nat} (h : n < 2 ^ 32) (rest : List Nat) :
    varUInt32Deser (leb128 n ++ rest) = some (n, rest) := by
  rw [varUInt32Deser, varUInt32DeserGo_leb128 5 n 0 0 rest (by omega)
    (by calc n < 2 ^ 32 := h
          _ ≤ 2 ^ (7 * 5) := by norm_num)
    (by simpa using h) (by norm_num)]
  rw [Nat.shiftLeft_zero, zero_lor']

/-- The 64-bit var-int read loop undoes the LEB128 emission loop. -/
theorem varUInt64DeserGo_leb128 :
    ∀ (i : Nat), ∀ (n shift acc : Nat) (rest : List Nat), 1 ≤ i → n < 2 ^ (7 * i) →
      n * 2 ^ shift < 2 ^ 64 → acc < 2 ^ 64 →
      varUInt64DeserGo i shift acc (leb128 n ++ rest) =
        some (acc ||| (n <<< shift), rest) := by
  intro i
  induction i with
  | zero => intro n shift acc rest h1; omega
  | succ i ih =>
    intro n shift acc rest _ hn hsh hacc
    have hchunk : n <<< shift < 2 ^ 64 := by
      rw [Nat.shiftLeft_eq]
      exact hsh
    by_cases hlt : n < 128
    · rw [leb128, dif_neg (by omega)]
      show varUInt64DeserGo (i + 1) shift acc (n :: rest) = _
      rw [varUInt64DeserGo]
      have hand : n &&& 127 = n := by rw [and_127_eq_mod]; omega
      have hcont : n &&& 128 = 0 := and_128_eq_zero n hlt
      have hfin : acc ||| n <<< shift < 2 ^ 64 := lor_lt_two_pow hacc hchunk
      simp [hand, hcont, Nat.mod_eq_of_lt hfin]
      omega
    · rw [leb128, dif_pos (by omega)]
      have hm : n % 128 < 128 := Nat.mod_lt _ (by omega)
      have hb : (n &&& 127) ||| 128 = n % 128 + 128 := by
        have hlor := lor_shiftLeft_eq_add (a := n % 128) 1 7 (by omega)
        norm_num [Nat.shiftLeft_eq] at hlor
        rw [and_127_eq_mod, hlor]
        omega
      rw [List.cons_append, hb]
      rw [varUInt64DeserGo]
      have hcont : (n % 128 + 128) &&& 128 = 128 := add_128_and_128 _ hm
      have hand : (n % 128 + 128) &&& 127 = n % 128 := add_128_and_127 _ hm
      have hchunk1 : (n % 128) <<< shift ≤ n <<< shift := by
        rw [Nat.shiftLeft_eq, Nat.shiftLeft_eq]
        exact Nat.mul_le_mul_right _ (Nat.mod_le n 128)
      have hi1 : 1 ≤ i := by
        rcases Nat.eq_zero_or_pos i with rfl | h
        · norm_num at hn
          omega
        · exact h
      have hpow : 2 ^ (7 * (i + 1)) = 128 * 2 ^ (7 * i) := by
        have h7 : 7 * (i + 1) = 7 + 7 * i := by ring
        rw [h7, pow_add]
        norm_num
      have hn' : n >>> 7 < 2 ^ (7 * i) := by
        rw [shiftRight_7_eq_div]
        rw [hpow] at hn
        exact Nat.div_lt_of_lt_mul hn
      have hsh' : (n >>> 7) * 2 ^ (shift + 7) ≤ n * 2 ^ shift := by
        rw [shiftRight_7_eq_div, pow_add]
        calc n / 128 * (2 ^ shift * 2 ^ 7) = n / 128 * 128 * 2 ^ shift := by ring_nf
          _ ≤ n * 2 ^ shift := Nat.mul_le_mul_right _ (Nat.div_mul_le_self n 128)
      have hacc' : acc ||| ((n % 128) <<< shift) < 2 ^ 64 :=
        lor_lt_two_pow hacc (by omega)
      simp only [hcont, hand]
      rw [if_neg (by omega)]
      rw [ih (n >>> 7) (shift + 7) (acc ||| ((n % 128) <<< shift)) rest hi1 hn'
        (by omega) hacc']
      congr 2
      rw [Nat.lor_assoc]
      congr 1
      have hsmall : (n % 128) <<< shift < 2 ^ (shift + 7) := by
        rw [Nat.shiftLeft_eq, pow_add]
        have h2 : n % 128 * 2 ^ shift < 2 ^ 7 * 2 ^ shift :=
          (Nat.mul_lt_mul_right (Nat.two_pow_pos shift)).mpr (by omega)
        calc n % 128 * 2 ^ shift < 2 ^ 7 * 2 ^ shift := h2
          _ = 2 ^ shift * 2 ^ 7 := by ring
      rw [lor_shiftLeft_eq_add (n >>> 7) (shift + 7) hsmall]
      rw [Nat.shiftLeft_eq, Nat.shiftLeft_eq, shiftRight_7_eq_div, pow_add]
      calc 2 ^ shift * 2 ^ 7 * (n / 128) + n % 128 * 2 ^ shift
          = (128 * (n / 128) + n % 128) * 2 ^ shift := by ring_nf
        _ = n * 2 ^ shift := by rw [Nat.div_add_mod]

/-- TS `VarUInt64Serializer`: deserializing an LEB128 encoding of a 64-bit
value recovers it. -/
theorem varUInt64Deser_leb128 {n : Nat} (h : n < 2 ^ 64) (rest : List Nat) :
    varUInt64Deser (leb128 n ++ rest) = some (n, rest) := by
  rw [varUInt64Deser, varUInt64DeserGo_leb128 10 n 0 0 rest (by omega)
    (by calc n < 2 ^ 64 := h
          _ ≤ 2 ^ (7 * 10) := by norm_num)
    (by simpa using h) (by norm_num)]
  rw [Nat.shiftLeft_zero, zero_lor']

/-- Reading back the big-endian bytes of a fitting pattern recovers it. -/
theorem beVal_beBytes : ∀ (w pat : Nat), pat < 2 ^ (8 * w) → ∀ rest : List Nat,
    beVal w (beBytes w pat ++ rest) = some (pat, rest) := by
  intro w
  induction w with
  | zero =>
    intro pat h rest
    have hp : pat = 0 := by norm_num at h; exact h
    simp [hp, beBytes, beVal]
  | succ w ih =>
    intro pat h rest
    have hpos : 0 < 2 ^ (8 * w) := Nat.two_pow_pos _
    have hpow : 2 ^ (8 * (w + 1)) = 2 ^ (8 * w) * 256 := by
      have h8 : 8 * (w + 1) = 8 * w + 8 := by ring
      rw [h8, pow_add]
      norm_num
    have hdivlt : pat / 2 ^ (8 * w) < 256 := by
      apply Nat.div_lt_of_lt_mul
      rw [hpow] at h
      exact h
    rw [beBytes, List.cons_append, beVal,
      ih (pat % 2 ^ (8 * w)) (Nat.mod_lt _ hpos) rest]
    rw [Nat.shiftRight_eq_div_pow, Nat.mod_eq_of_lt hdivlt]
    have hfin : pat / 2 ^ (8 * w) * 2 ^ (8 * w) + pat % 2 ^ (8 * w) = pat := by
      rw [Nat.mul_comm]
      exact Nat.div_add_mod pat (2 ^ (8 * w))
    simp [hfin]

/-- The stored pattern of a DataView write fits its width. -/
theorem intPat_lt (w : Nat) (n : Int) : intPat w n < 2 ^ (8 * w) := by
  unfold intPat
  have hM : (0 : Int) < ((2 ^ (8 * w) : Nat) : Int) := by exact_mod_cast Nat.two_pow_pos _
  have h1 : 0 ≤ n % ((2 ^ (8 * w) : Nat) : Int) := Int.emod_nonneg n (by omega)
  have h2 : n % ((2 ^ (8 * w) : Nat) : Int) < ((2 ^ (8 * w) : Nat) : Int) :=
    Int.emod_lt_of_pos n hM
  omega

/-- An in-range unsigned value is stored and read back unchanged. -/
theorem intPat_uint (w : Nat) (n : Int) (h0 : 0 ≤ n)
    (hlt : n < ((2 ^ (8 * w) : Nat) : Int)) : ((intPat w n : Nat) : Int) = n := by
  unfold intPat
  rw [Int.emod_eq_of_lt h0 hlt]
  omega

/-- An in-range signed value survives the two's-complement store and the
signed read (`setIntN` then `getIntN`). -/
theorem toSigned_intPat (w : Nat) (hw : 1 ≤ w) (n : Int)
    (hlo : -((2 ^ (8 * w - 1) : Nat) : Int) ≤ n)
    (hhi : n < ((2 ^ (8 * w - 1) : Nat) : Int)) :
    toSigned w (intPat w n) = n := by
  have hMH : (2 ^ (8 * w) : Nat) = 2 * 2 ^ (8 * w - 1) := by
    conv_lhs => rw [show 8 * w = (8 * w - 1) + 1 from by omega]
    rw [pow_succ]
    ring
  have hcast : ((2 ^ (8 * w) : Nat) : Int) = 2 * ((2 ^ (8 * w - 1) : Nat) : Int) := by
    exact_mod_cast hMH
  have hlink : ((2 : Int) ^ (8 * w)) = ((2 ^ (8 * w) : Nat) : Int) := by push_cast; ring
  unfold toSigned intPat
  by_cases hn : 0 ≤ n
  · rw [Int.emod_eq_of_lt hn (by omega)]
    split <;> omega
  · have h1 : (n + ((2 ^ (8 * w) : Nat) : Int) * 1) % ((2 ^ (8 * w) : Nat) : Int)
        = n % ((2 ^ (8 * w) : Nat) : Int) :=
      Int.add_mul_emod_self_left n (((2 ^ (8 * w) : Nat) : Int)) 1
    rw [mul_one] at h1
    rw [← h1, Int.emod_eq_of_lt (by omega) (by omega)]
    split <;> omega

/-- The 32-bit zigzag pattern is a 32-bit value, and zigzag decoding
recovers the original signed value. -/
theorem unzigzag32_zigzag32 (v : Int) (hlo : -(2 ^ 31 : Int) ≤ v)
    (hhi : v < 2 ^ 31) :
    zigzag32 v < 2 ^ 32 ∧ unzigzag32 (zigzag32 v) = v := by
  unfold zigzag32 jsToUint32
  by_cases hv : 0 ≤ v
  · have hpat : (v % ((2 ^ 32 : Nat) : Int)).toNat = v.toNat := by
      rw [Int.emod_eq_of_lt hv (by push_cast; omega)]
    rw [hpat]
    have hlt31 : v.toNat < 2 ^ 31 := by omega
    rw [if_neg (by omega)]
    have hmod : (2 * v.toNat) % 2 ^ 32 = 2 * v.toNat := Nat.mod_eq_of_lt (by omega)
    rw [hmod, Nat.xor_zero]
    refine ⟨by omega, ?_⟩
    unfold unzigzag32 toInt32
    have hshr : (2 * v.toNat) >>> 1 = v.toNat := by
      rw [Nat.shiftRight_eq_div_pow]
      omega
    have hand : (2 * v.toNat) &&& 1 = 0 := by rw [and_1_eq_mod]; omega
    rw [hshr, hand]
    have hif0 : (if (0 : Nat) = 0 then (0 : Nat) else 2 ^ 32 - 1) = 0 := by norm_num
    rw [hif0, Nat.xor_zero, if_pos hlt31]
    omega
  · have h1 : (v + ((2 ^ 32 : Nat) : Int) * 1) % ((2 ^ 32 : Nat) : Int)
        = v % ((2 ^ 32 : Nat) : Int) :=
      Int.add_mul_emod_self_left v (((2 ^ 32 : Nat) : Int)) 1
    rw [mul_one] at h1
    have hpatv : v % ((2 ^ 32 : Nat) : Int) = v + ((2 ^ 32 : Nat) : Int) := by
      rw [← h1, Int.emod_eq_of_lt (by push_cast; omega) (by push_cast; omega)]
    rw [hpatv]
    have hlo32 : 2 ^ 31 ≤ (v + ((2 ^ 32 : Nat) : Int)).toNat := by push_cast; omega
    have hhi32 : (v + ((2 ^ 32 : Nat) : Int)).toNat < 2 ^ 32 := by push_cast; omega
    rw [if_pos hlo32]
    have hw : (2 * (v + ((2 ^ 32 : Nat) : Int)).toNat) % 2 ^ 32
        = 2 * (v + ((2 ^ 32 : Nat) : Int)).toNat - 2 ^ 32 := by omega
    rw [hw]
    have hweven : (2 * (v + ((2 ^ 32 : Nat) : Int)).toNat - 2 ^ 32) % 2 = 0 := by omega
    have hwlt : 2 * (v + ((2 ^ 32 : Nat) : Int)).toNat - 2 ^ 32 < 2 ^ 32 := by omega
    constructor
    · exact Nat.xor_lt_two_pow hwlt (by norm_num)
    · unfold unzigzag32 toInt32
      have hzmod : ((2 * (v + ((2 ^ 32 : Nat) : Int)).toNat - 2 ^ 32) ^^^ (2 ^ 32 - 1)) % 2
          = 1 := by
        rw [Nat.xor_mod_two_eq]
        omega
      have hand : ((2 * (v + ((2 ^ 32 : Nat) : Int)).toNat - 2 ^ 32) ^^^ (2 ^ 32 - 1)) &&& 1
          = 1 := by rw [and_1_eq_mod, hzmod]
      rw [hand]
      have hif1 : (if (1 : Nat) = 0 then (0 : Nat) else 2 ^ 32 - 1) = 2 ^ 32 - 1 := by
        norm_num
      rw [hif1]
      rw [shiftRight_xor]
      have hc1 : ((2 ^ 32 - 1 : Nat)) >>> 1 = 2 ^ 31 - 1 := by decide
      rw [hc1, Nat.xor_assoc]
      have hc2 : ((2 ^ 31 - 1 : Nat)) ^^^ (2 ^ 32 - 1) = 2 ^ 31 := by decide
      rw [hc2]
      have hwshr : (2 * (v + ((2 ^ 32 : Nat) : Int)).toNat - 2 ^ 32) >>> 1
          = (v + ((2 ^ 32 : Nat) : Int)).toNat - 2 ^ 31 := by
        rw [Nat.shiftRight_eq_div_pow]
        omega
      rw [hwshr]
      have hsub : (v + ((2 ^ 32 : Nat) : Int)).toNat - 2 ^ 31 < 2 ^ 31 := by omega
      rw [xor_two_pow_eq_add 31 hsub]
      rw [if_neg (by omega)]
      push_cast
      omega

/-- The 64-bit bigint zigzag round trip on the serializer's domain. -/
theorem unzigzag64_zigzag64 (v : Int) (hlo : -(2 ^ 63 : Int) ≤ v)
    (hhi : v < 2 ^ 63) :
    asUintN64 (zigzag64 v) < 2 ^ 64 ∧ unzigzag64 (asUintN64 (zigzag64 v)) = v := by
  unfold zigzag64 asUintN64 unzigzag64
  have hM : ((2 ^ 64 : Nat) : Int) = 2 ^ 64 := by norm_num
  split_ifs <;> omega

/-- The string serializer's per-character loop round-trips any sequence of
UTF-16 code units. -/
theorem deserializeCodes_serializeCodes : ∀ (cs : List Nat),
    (∀ c ∈ cs, c < 2 ^ 16) →
    ∀ rest, deserializeCodes cs.length (serializeCodes cs ++ rest) = some (cs, rest) := by
  intro cs
  induction cs with
  | nil => intro _ rest; simp [serializeCodes, deserializeCodes]
  | cons c cs ih =>
    intro h rest
    have hc : c < 2 ^ 16 := h c (by simp)
    have hc32 : c % 2 ^ 32 = c := Nat.mod_eq_of_lt (by omega)
    rw [List.length_cons, serializeCodes, hc32, List.append_assoc, deserializeCodes]
    rw [varUInt32Deser_leb128 (show c < 2 ^ 32 by omega)]
    simp [ih (fun x hx => h x (by simp [hx])) rest, Nat.mod_eq_of_lt hc]
    omega

/-- A complete schema is not a missing serializer slot. -/
theorem completeB_ne_missing {s : Schema} (h : completeB s = true) :
    s ≠ Schema.missing := by
  intro hs
  subst hs
  simp [completeB] at h

/-- Validity of an optional at a present value is validity of the inner
value. -/
theorem validB_optional (e : Schema) (v : Value) (h : v ≠ .undef) :
    validB (.optional e) v = validB e v := by
  cases v <;> simp [validB] at h ⊢

/-- Serializing an optional at a present value writes the flag byte 1 then
the inner bytes. -/
theorem serialize_optional (e : Schema) (v : Value) (h : v ≠ .undef) :
    serialize (.optional e) v = (serialize e v).map (fun bs => 1 :: bs) := by
  cases v <;> simp [serialize] at h ⊢

/-- A `Map.set` with a fresh key appends the entry. -/
theorem mapSet_append (acc : List (Value × Value)) (k v : Value)
    (h : ∀ q ∈ acc, sameValueZero q.1 k = false) :
    mapSet acc k v = acc ++ [(k, v)] := by
  induction acc with
  | nil => rfl
  | cons q acc ih =>
    obtain ⟨k0, v0⟩ := q
    rw [mapSet, if_neg (by simp [h (k0, v0) (by simp)])]
    rw [ih (fun q hq => h q (by simp [hq]))]
    rfl

/-- A `Set.add` of a fresh element appends it. -/
theorem setAdd_append (acc : List Value) (x : Value)
    (h : ∀ q ∈ acc, sameValueZero q x = false) :
    setAdd acc x = acc ++ [x] := by
  unfold setAdd
  rw [if_neg]
  simp only [List.any_eq_true, not_exists]
  intro q hq
  rw [h q hq.1] at hq
  exact absurd hq.2 (by simp)

set_option maxHeartbeats 2000000 in
mutual
/-- Core round trip: on a complete schema and a valid value, serialization
succeeds and deserializing the produced bytes before any suffix returns the
value and the suffix. -/
theorem serialize_roundtrip_go (s : Schema) (v : Value)
    (hcomp : completeB s = true) (hval : validB s v = true) :
    ∃ bs, serialize s v = some bs ∧
      ∀ rest, deserialize s (bs ++ rest) = some (v, rest) := by
  cases s with
  | missing => simp [completeB] at hcomp
  | boolean =>
    cases v <;> simp [validB] at hval
    next b =>
      refine ⟨[if b then 1 else 0], by simp [serialize], fun rest => ?_⟩
      cases b <;> simp [deserialize, nextByte]
  | int8 =>
    cases v <;> simp [validB] at hval
    next n =>
      refine ⟨beBytes 1 (intPat 1 n), by simp [serialize], fun rest => ?_⟩
      simp only [deserialize]
      rw [beVal_beBytes 1 _ (intPat_lt 1 n)]
      simp only [Option.map_some']
      rw [toSigned_intPat 1 (by norm_num) n (by push_cast; omega) (by push_cast; omega)]
  | int16 =>
    cases v <;> simp [validB] at hval
    next n =>
      refine ⟨beBytes 2 (intPat 2 n), by simp [serialize], fun rest => ?_⟩
      simp only [deserialize]
      rw [beVal_beBytes 2 _ (intPat_lt 2 n)]
      simp only [Option.map_some']
      rw [toSigned_intPat 2 (by norm_num) n (by push_cast; omega) (by push_cast; omega)]
  | int32 =>
    cases v <;> simp [validB] at hval
    next n =>
      refine ⟨beBytes 4 (intPat 4 n), by simp [serialize], fun rest => ?_⟩
      simp only [deserialize]
      rw [beVal_beBytes 4 _ (intPat_lt 4 n)]
      simp only [Option.map_some']
      rw [toSigned_intPat 4 (by norm_num) n (by push_cast; omega) (by push_cast; omega)]
  | uint8 =>
    cases v <;> simp [validB] at hval
    next n =>
      refine ⟨beBytes 1 (intPat 1 n), by simp [serialize], fun rest => ?_⟩
      simp only [deserialize]
      rw [beVal_beBytes 1 _ (intPat_lt 1 n)]
      simp only [Option.map_some']
      rw [intPat_uint 1 n (by omega) (by push_cast; omega)]
  | uint16 =>
    cases v <;> simp [validB] at hval
    next n =>
      refine ⟨beBytes 2 (intPat 2 n), by simp [serialize], fun rest => ?_⟩
      simp only [deserialize]
      rw [beVal_beBytes 2 _ (intPat_lt 2 n)]
      simp only [Option.map_some']
      rw [intPat_uint 2 n (by omega) (by push_cast; omega)]
  | uint32 =>
    cases v <;> simp [validB] at hval
    next n =>
      refine ⟨beBytes 4 (intPat 4 n), by simp [serialize], fun rest => ?_⟩
      simp only [deserialize]
      rw [beVal_beBytes 4 _ (intPat_lt 4 n)]
      simp only [Option.map_some']
      rw [intPat_uint 4 n (by omega) (by push_cast; omega)]
  | float32 =>
    cases v <;> simp [validB] at hval
    next pat =>
      refine ⟨beBytes 4 pat, by simp [serialize], fun rest => ?_⟩
      simp only [deserialize]
      rw [beVal_beBytes 4 pat (by omega)]
      simp
  | float64 =>
    cases v <;> simp [validB] at hval
    next pat =>
      refine ⟨beBytes 8 pat, by simp [serialize], fun rest => ?_⟩
      simp only [deserialize]
      rw [beVal_beBytes 8 pat (by omega)]
      simp
  | varuint32 =>
    cases v <;> simp [validB] at hval
    next n =>
      have hn : jsToUint32 n = n.toNat := by
        unfold jsToUint32
        rw [Int.emod_eq_of_lt hval.1 (by push_cast; omega)]
      refine ⟨leb128 (jsToUint32 n), by simp [serialize], fun rest => ?_⟩
      simp only [deserialize, hn]
      rw [varUInt32Deser_leb128 (by omega) rest]
      simp only [Option.map_some']
      rw [Int.toNat_of_nonneg hval.1]
  | varint32 =>
    cases v <;> simp [validB] at hval
    next n =>
      obtain ⟨hz, hun⟩ := unzigzag32_zigzag32 n (by omega) (by omega)
      refine ⟨leb128 (zigzag32 n), by simp [serialize], fun rest => ?_⟩
      simp only [deserialize]
      rw [varUInt32Deser_leb128 hz rest]
      simp [hun]
  | varuint64 =>
    cases v <;> simp [validB] at hval
    next n =>
      have hn : asUintN64 n = n.toNat := by
        unfold asUintN64
        rw [Int.emod_eq_of_lt hval.1 (by push_cast; omega)]
      refine ⟨leb128 (asUintN64 n), by simp [serialize], fun rest => ?_⟩
      simp only [deserialize, hn]
      rw [varUInt64Deser_leb128 (by omega) rest]
      simp only [Option.map_some']
      rw [Int.toNat_of_nonneg hval.1]
  | varint64 =>
    cases v <;> simp [validB] at hval
    next n =>
      obtain ⟨hz, hun⟩ := unzigzag64_zigzag64 n (by omega) (by omega)
      refine ⟨leb128 (asUintN64 (zigzag64 n)), by simp [serialize], fun rest => ?_⟩
      simp only [deserialize]
      rw [varUInt64Deser_leb128 hz rest]
      simp [hun]
  | string =>
    cases v <;> simp [validB] at hval
    next cs =>
      obtain ⟨hlen, hcs⟩ := hval
      have hmod : cs.length % 2 ^ 32 = cs.length := Nat.mod_eq_of_lt hlen
      refine ⟨leb128 (cs.length % 2 ^ 32) ++ serializeCodes cs,
        by simp [serialize], fun rest => ?_⟩
      simp only [deserialize, hmod]
      rw [List.append_assoc, varUInt32Deser_leb128 hlen]
      simp [deserializeCodes_serializeCodes cs hcs rest]
  | array e =>
    simp only [completeB] at hcomp
    cases v <;> simp [validB] at hval
    next vs =>
      obtain ⟨hlen, hvl⟩ := hval
      obtain ⟨bs, hser, hdeser⟩ := serializeList_go e vs hcomp hvl
      have hmod : vs.length % 2 ^ 32 = vs.length := Nat.mod_eq_of_lt hlen
      refine ⟨leb128 (vs.length % 2 ^ 32) ++ bs, by simp [serialize, hser],
        fun rest => ?_⟩
      simp only [deserialize, hmod]
      rw [List.append_assoc, varUInt32Deser_leb128 hlen]
      simp [completeB_ne_missing hcomp, hdeser rest]
  | optional e =>
    simp only [completeB] at hcomp
    by_cases hu : v = Value.undef
    · subst hu
      refine ⟨[0], by simp [serialize], fun rest => ?_⟩
      simp [deserialize, nextByte]
    · rw [validB_optional e v hu] at hval
      obtain ⟨bs, hser, hdeser⟩ := serialize_roundtrip_go e v hcomp hval
      refine ⟨1 :: bs, by simp [serialize_optional e v hu, hser], fun rest => ?_⟩
      simp [deserialize, nextByte, hdeser rest]
  | map k v' =>
    simp only [completeB, Bool.and_eq_true] at hcomp
    cases v <;> simp [validB] at hval
    next es =>
      obtain ⟨⟨hlen, hve⟩, hdk⟩ := hval
      obtain ⟨bs, hser, hdeser⟩ := serializeEntries_go k v' es hcomp.1 hcomp.2 hve hdk
      have hmod : es.length % 2 ^ 32 = es.length := Nat.mod_eq_of_lt hlen
      refine ⟨leb128 (es.length % 2 ^ 32) ++ bs, by simp [serialize, hser],
        fun rest => ?_⟩
      simp only [deserialize, hmod]
      rw [List.append_assoc, varUInt32Deser_leb128 hlen]
      simp [hdeser [] rest (by simp)]
  | set e =>
    simp only [completeB] at hcomp
    cases v <;> simp [validB] at hval
    next vs =>
      obtain ⟨⟨hlen, hvl⟩, hde⟩ := hval
      obtain ⟨bs, hser, hdeser⟩ := serializeSet_go e vs hcomp hvl hde
      have hmod : vs.length % 2 ^ 32 = vs.length := Nat.mod_eq_of_lt hlen
      refine ⟨leb128 (vs.length % 2 ^ 32) ++ bs, by simp [serialize, hser],
        fun rest => ?_⟩
      simp only [deserialize, hmod]
      rw [List.append_assoc, varUInt32Deser_leb128 hlen]
      simp [hdeser [] rest (by simp)]
  | object fs =>
    simp only [completeB] at hcomp
    cases v <;> simp [validB] at hval
    next ovs =>
      obtain ⟨bs, hser, hdeser⟩ := serializeFields_go fs ovs hcomp hval
      refine ⟨bs, by simp [serialize, hser], fun rest => ?_⟩
      simp [deserialize, hdeser rest]
  | tuple ss =>
    simp only [completeB] at hcomp
    cases v <;> simp [validB] at hval
    next vs =>
      obtain ⟨bs, hser, hdeser⟩ := serializeTuple_go ss vs hcomp hval
      refine ⟨bs, by simp [serialize, hser], fun rest => ?_⟩
      simp [deserialize, hdeser rest]
termination_by (sizeOf s, 1, sizeOf v)
decreasing_by all_goals (simp_wf; simp [Prod.lex_def]; try (first | omega | (subst_eqs; simp; try omega)))

/-- Round trip of the element loop shared by array serialization. -/
theorem serializeList_go (e : Schema) (vs : List Value)
    (hcomp : completeB e = true) (hval : validList e vs = true) :
    ∃ bs, serializeList e vs = some bs ∧
      ∀ rest, deserializeList e vs.length (bs ++ rest) = some (vs, rest) := by
  cases vs with
  | nil => exact ⟨[], by simp [serializeList], fun rest => by simp [deserializeList]⟩
  | cons v vs =>
    simp only [validList, Bool.and_eq_true] at hval
    obtain ⟨bv, hserv, hdv⟩ := serialize_roundtrip_go e v hcomp hval.1
    obtain ⟨bl, hserl, hdl⟩ := serializeList_go e vs hcomp hval.2
    refine ⟨bv ++ bl, by simp [serializeList, hserv, hserl], fun rest => ?_⟩
    rw [List.length_cons]
    simp [deserializeList, List.append_assoc, hdv (bl ++ rest), hdl rest]
termination_by (sizeOf e + 1, 0, sizeOf vs)
decreasing_by all_goals (simp_wf; simp [Prod.lex_def]; try (first | omega | (subst_eqs; simp; try omega)))

/-- Round trip of the map entry loop, generalized over the accumulated
entries: deserialization appends the wire entries to any accumulator whose
keys are fresh for them. -/
theorem serializeEntries_go (k v : Schema) (es : List (Value × Value))
    (hck : completeB k = true) (hcv : completeB v = true)
    (hval : validEntries k v es = true) (hdk : distinctKeys es = true) :
    ∃ bs, serializeEntries k v es = some bs ∧
      ∀ acc rest, (∀ p ∈ es, ∀ q ∈ acc, sameValueZero q.1 p.1 = false) →
        deserializeEntries k v es.length acc (bs ++ rest) = some (acc ++ es, rest) := by
  revert hval hdk
  cases es with
  | nil =>
    intro hval hdk
    exact ⟨[], by simp [serializeEntries],
      fun acc rest _ => by simp [deserializeEntries]⟩
  | cons p es =>
    intro hval hdk
    obtain ⟨key, val⟩ := p
    simp only [validEntries, Bool.and_eq_true] at hval
    simp only [distinctKeys, Bool.and_eq_true, List.all_eq_true,
      Bool.not_eq_true'] at hdk
    obtain ⟨⟨hvk, hvv⟩, hve⟩ := hval
    obtain ⟨hfresh0, hdk'⟩ := hdk
    obtain ⟨bk, hserk, hdkey⟩ := serialize_roundtrip_go k key hck hvk
    obtain ⟨bv, hserv, hdval⟩ := serialize_roundtrip_go v val hcv hvv
    obtain ⟨bes, hsere, hde⟩ := serializeEntries_go k v es hck hcv hve hdk'
    refine ⟨bk ++ (bv ++ bes), by simp [serializeEntries, hserk, hserv, hsere],
      fun acc rest hacc => ?_⟩
    rw [List.length_cons]
    have hmap : mapSet acc key val = acc ++ [(key, val)] :=
      mapSet_append acc key val (fun q hq => hacc (key, val) (by simp) q hq)
    have hfresh2 : ∀ p ∈ es, ∀ q ∈ acc ++ [(key, val)],
        sameValueZero q.1 p.1 = false := by
      intro p hp q hq
      rcases List.mem_append.mp hq with h | h
      · exact hacc p (by simp [hp]) q h
      · simp only [List.mem_singleton] at h
        rw [h]
        exact hfresh0 p hp
    have hb : (bk ++ (bv ++ bes)) ++ rest = bk ++ (bv ++ (bes ++ rest)) := by simp
    simp only [deserializeEntries]
    rw [hb, hdkey (bv ++ (bes ++ rest))]
    simp [hdval (bes ++ rest), hmap, hde (acc ++ [(key, val)]) rest hfresh2]
termination_by (sizeOf k + sizeOf v + 1, 0, sizeOf es)
decreasing_by all_goals (simp_wf; simp [Prod.lex_def]; try (first | omega | (subst_eqs; simp; try omega)))

/-- Round trip of the set element loop, generalized over the accumulated
elements. -/
theorem serializeSet_go (e : Schema) (vs : List Value)
    (hcomp : completeB e = true) (hval : validList e vs = true)
    (hde : distinctElems vs = true) :
    ∃ bs, serializeList e vs = some bs ∧
      ∀ acc rest, (∀ p ∈ vs, ∀ q ∈ acc, sameValueZero q p = false) →
        deserializeSet e vs.length acc (bs ++ rest) = some (acc ++ vs, rest) := by
  revert hval hde
  cases vs with
  | nil =>
    intro hval hde
    exact ⟨[], by simp [serializeList], fun acc rest _ => by simp [deserializeSet]⟩
  | cons v vs =>
    intro hval hde
    simp only [validList, Bool.and_eq_true] at hval
    simp only [distinctElems, Bool.and_eq_true, List.all_eq_true,
      Bool.not_eq_true'] at hde
    obtain ⟨hfresh0, hde2⟩ := hde
    obtain ⟨bv, hserv, hdv⟩ := serialize_roundtrip_go e v hcomp hval.1
    obtain ⟨bl, hserl, hdl⟩ := serializeSet_go e vs hcomp hval.2 hde2
    refine ⟨bv ++ bl, by simp [serializeList, hserv, hserl],
      fun acc rest hacc => ?_⟩
    rw [List.length_cons]
    have hadd : setAdd acc v = acc ++ [v] :=
      setAdd_append acc v (fun q hq => hacc v (by simp) q hq)
    have hfresh2 : ∀ p ∈ vs, ∀ q ∈ acc ++ [v], sameValueZero q p = false := by
      intro p hp q hq
      rcases List.mem_append.mp hq with h | h
      · exact hacc p (by simp [hp]) q h
      · simp only [List.mem_singleton] at h
        rw [h]
        exact hfresh0 p hp
    have hb : (bv ++ bl) ++ rest = bv ++ (bl ++ rest) := by simp
    simp only [deserializeSet]
    rw [hb, hdv (bl ++ rest)]
    simp [hadd, hdl (acc ++ [v]) rest hfresh2]
termination_by (sizeOf e + 1, 0, sizeOf vs)
decreasing_by all_goals (simp_wf; simp [Prod.lex_def]; try (first | omega | (subst_eqs; simp; try omega)))

/-- Round trip of the object field loop. -/
theorem serializeFields_go (fs : Fields) (ovs : List (String × Value))
    (hcomp : completeFields fs = true) (hval : validFields fs ovs = true) :
    ∃ bs, serializeFields fs ovs = some bs ∧
      ∀ rest, deserializeFields fs (bs ++ rest) = some (ovs, rest) := by
  cases fs with
  | nil =>
    cases ovs with
    | nil => exact ⟨[], by simp [serializeFields], fun rest => by simp [deserializeFields]⟩
    | cons o ovs => simp [validFields] at hval
  | cons name sc rest =>
    cases ovs with
    | nil => simp [validFields] at hval
    | cons o ovs =>
      obtain ⟨n, v⟩ := o
      simp only [validFields, Bool.and_eq_true, decide_eq_true_eq] at hval
      simp only [completeFields, Bool.and_eq_true] at hcomp
      obtain ⟨⟨hn, hv⟩, hrest⟩ := hval
      subst hn
      obtain ⟨bv, hserv, hdv⟩ := serialize_roundtrip_go sc v hcomp.1 hv
      obtain ⟨bf, hserf, hdf⟩ := serializeFields_go rest ovs hcomp.2 hrest
      refine ⟨bv ++ bf, by simp [serializeFields, hserv, hserf], fun rest' => ?_⟩
      simp only [deserializeFields]
      rw [if_neg (completeB_ne_missing hcomp.1)]
      simp [List.append_assoc, hdv (bf ++ rest'), hdf rest']
termination_by (sizeOf fs + 1, 0, sizeOf ovs)
decreasing_by all_goals (simp_wf; simp [Prod.lex_def]; try (first | omega | (subst_eqs; simp; try omega)))

/-- Round trip of the tuple slot loop. -/
theorem serializeTuple_go (ss : SList) (vs : List Value)
    (hcomp : completeTuple ss = true) (hval : validTuple ss vs = true) :
    ∃ bs, serializeTuple ss vs = some bs ∧
      ∀ rest, deserializeTuple ss (bs ++ rest) = some (vs, rest) := by
  cases ss with
  | nil =>
    cases vs with
    | nil => exact ⟨[], by simp [serializeTuple], fun rest => by simp [deserializeTuple]⟩
    | cons v vs => simp [validTuple] at hval
  | cons sc rest =>
    cases vs with
    | nil => simp [validTuple] at hval
    | cons v vs =>
      simp only [validTuple, Bool.and_eq_true] at hval
      simp only [completeTuple, Bool.and_eq_true] at hcomp
      obtain ⟨bv, hserv, hdv⟩ := serialize_roundtrip_go sc v hcomp.1 hval.1
      obtain ⟨bf, hserf, hdf⟩ := serializeTuple_go rest vs hcomp.2 hval.2
      refine ⟨bv ++ bf, by simp [serializeTuple, hserv, hserf], fun rest' => ?_⟩
      simp only [deserializeTuple]
      rw [if_neg (completeB_ne_missing hcomp.1)]
      simp [List.append_assoc, hdv (bf ++ rest'), hdf rest']
termination_by (sizeOf ss + 1, 0, sizeOf vs)
decreasing_by all_goals (simp_wf; simp [Prod.lex_def]; try (first | omega | (subst_eqs; simp; try omega)))
end

/-- C2: for every serializer kind the framework provides and every valid
value of the serializer's type, serialization succeeds and deserializing
the produced bytes returns the value exactly, consuming the whole output. -/
theorem serializer_roundtrip (s : Schema) (v : Value)
    (hcomp : completeB s = true) (hval : validB s v = true) :
    ∃ bs, serialize s v = some bs ∧ deserialize s bs = some (v, []) := by
  obtain ⟨bs, hser, hdeser⟩ := serialize_roundtrip_go s v hcomp hval
  exact ⟨bs, hser, by simpa using hdeser []⟩

/-- Witness for C2 at the object `\x7bname: "Steve", level: 10\x7d` under the
two-field object schema of the spec's example. -/
theorem serializer_roundtrip_witness :
    completeB (Schema.object (Fields.cons "name" Schema.string
      (Fields.cons "level" Schema.varuint32 Fields.nil))) = true ∧
    validB (Schema.object (Fields.cons "name" Schema.string
      (Fields.cons "level" Schema.varuint32 Fields.nil)))
      (Value.obj [("name", Value.str [83, 116, 101, 118, 101]),
        ("level", Value.int 10)]) = true ∧
    ∃ bs,
      serialize (Schema.object (Fields.cons "name" Schema.string
          (Fields.cons "level" Schema.varuint32 Fields.nil)))
        (Value.obj [("name", Value.str [83, 116, 101, 118, 101]),
          ("level", Value.int 10)]) = some bs ∧
      deserialize (Schema.object (Fields.cons "name" Schema.string
          (Fields.cons "level" Schema.varuint32 Fields.nil))) bs =
        some (Value.obj [("name", Value.str [83, 116, 101, 118, 101]),
          ("level", Value.int 10)], []) :=
  ⟨by decide, by simp [validB, validFields],
    serializer_roundtrip _ _ (by decide) (by simp [validB, validFields])⟩

/-- C4 counterexample: a missing child serializer in a composite schema
does NOT raise an error on deserialization.  An object whose only child is
missing deserializes an empty buffer to an empty object, an array whose
element serializer is missing consumes only the length prefix and returns
an empty array, and a tuple with a single missing slot returns an empty
tuple — all silently, against the stated error policy. -/
theorem deserialize_missing_child_counterexample :
    deserialize (Schema.object (Fields.cons "a" Schema.missing Fields.nil)) [] =
      some (Value.obj [], []) ∧
    deserialize (Schema.array Schema.missing) [2, 7, 7] =
      some (Value.list [], [7, 7]) ∧
    deserialize (Schema.tuple (SList.cons Schema.missing SList.nil)) [] =
      some (Value.list [], []) := by
  refine ⟨by simp [deserialize, deserializeFields], ?_,
    by simp [deserialize, deserializeTuple]⟩
  simp only [deserialize]
  rfl

/-- C4 as the code behaves: insufficient input does fail loudly (`none`) in
every primitive reader and for a directly missing serializer, but a
missing child inside an array, object, or tuple schema is silently skipped:
the array variant returns an empty array after the length prefix, and the
object and tuple loops drop the slot and continue with the remaining
children. -/
theorem deserialize_error_policy (w i shift acc : Nat) (name : String)
    (fs : Fields) (ss : SList) (bs : List Nat) :
    nextByte [] = none ∧
    beVal (w + 1) [] = none ∧
    varUInt32DeserGo (i + 1) shift acc [] = none ∧
    deserialize Schema.missing bs = none ∧
    deserialize (Schema.array Schema.missing) bs =
      (varUInt32Deser bs).map (fun p => (Value.list [], p.2)) ∧
    deserializeFields (Fields.cons name Schema.missing fs) bs =
      deserializeFields fs bs ∧
    deserializeTuple (SList.cons Schema.missing ss) bs =
      deserializeTuple ss bs := by
  refine ⟨rfl, rfl, rfl, by simp [deserialize], ?_, by simp [deserializeFields],
    by simp [deserializeTuple]⟩
  cases h : varUInt32Deser bs with
  | none => simp [deserialize, h]
  | some p => simp [deserialize, h]

end IPC
